import Mathlib

/-! SimpleVector (simple-vector/simple_vector.h)

A shallow embedding of the growable array `SimpleVector<Type>` and of its
mutating operations.

Conventions of the embedding:

* a buffer (`ArrayPtr<Type>`) is a `List α` holding the allocated slots; the
  empty list is the null pointer;
* a position (`Iterator`, `ConstIterator`) is the offset of the pointer from the
  start of the buffer; where the source compares a position with the null
  pointers that `cbegin()` and `cend()` return for an empty vector (`Insert`),
  the position is a `Ptr`, the null pointer or a slot of the buffer;
* a `const Type&` argument that the source reads after it has worked on the
  buffer (`PushBack`, `Insert`) is a `Ref`: an object outside the buffer or a
  slot of the buffer, read at the moment the source reads it;
* every operation returns an `Option`: `none` stands for a run without a
  defined result, that is a failed `assert`, an access to a slot outside the
  allocated buffer or a read through a reference into a freed buffer;
* `std::move` of an element assigns it and leaves the source slot as it is
  (as for scalar element types);
* `size_t` is `Nat`, with the arithmetic that can leave the range of a 64-bit
  `size_t` (`capacity_ * 2`, `size_ + 1`, `size_ - 1` after `Resize`) reduced
  modulo `2 ^ 64` by `size_t`;
* an allocation always succeeds; where it matters that no array has `2 ^ 63`
  or more elements (the vectors a program can hold after `Insert`), that bound
  is a premise.
-/

namespace SimpleVec

variable {α : Type}

/-! ## The buffer -/

/-- Modelled from the spec: `ArrayPtr<Type>(n)` of array_ptr.h, which is not among
the sources. It allocates storage for exactly `n` elements (no storage for
`n = 0`); the content of a fresh slot is not specified, so it is supplied by
`junk`, over which every statement quantifies. -/
def ArrayPtr.alloc (junk : Nat → α) (n : Nat) : List α :=
  (List.range n).map junk

/-- Modelled from the spec: reading `items_[i]` of array_ptr.h (no bounds check in
the source); outside the allocated slots there is no defined result. -/
def ArrayPtr.read (buf : List α) (i : Nat) : Option α :=
  buf[i]?

/-- Modelled from the spec: writing `items_[i] = x` of array_ptr.h (no bounds
check in the source); outside the allocated slots there is no defined result. -/
def ArrayPtr.write (buf : List α) (i : Nat) (x : α) : Option (List α) :=
  if i < buf.length then some (buf.set i x) else none

/-! ## The range algorithms of `<algorithm>` used by the vector

Each one is the element-by-element loop of its *Effects* clause; `n` is the
number of elements `last - first`. -/

/-- The loop `for (it = first; it != last; ++it) *it = x` and `std::fill`: writes
`x` into the `n` slots starting at offset `first`. -/
def std_fill (buf : List α) (first : Nat) (x : α) : Nat → Option (List α)
  | 0 => some buf
  | n + 1 => (ArrayPtr.write buf first x).bind fun b => std_fill b (first + 1) x n

/-- The algorithms `std::copy` and `std::move` from one buffer into another:
`dst[d + k] = src[first + k]` for `k = 0, 1, ..., n - 1`. -/
def std_copy (src : List α) (first : Nat) (dst : List α) (d : Nat) : Nat → Option (List α)
  | 0 => some dst
  | n + 1 =>
    (ArrayPtr.read src first).bind fun x =>
      (ArrayPtr.write dst d x).bind fun b => std_copy src (first + 1) b (d + 1) n

/-- The algorithm `std::move(first, last, d_first)` inside one buffer:
`buf[d + k] = buf[first + k]` for `k = 0, 1, ..., n - 1`, in this order. -/
def std_move (buf : List α) (first d : Nat) : Nat → Option (List α)
  | 0 => some buf
  | n + 1 =>
    (ArrayPtr.read buf first).bind fun x =>
      (ArrayPtr.write buf d x).bind fun b => std_move b (first + 1) (d + 1) n

/-- The algorithms `std::copy_backward` and `std::move_backward` inside one
buffer: `buf[d_last - k] = buf[last - k]` for `k = 1, 2, ..., n`, in this order
(the last element first), also when `d_last` lies inside `(first, last]`, where
the library leaves the result open. -/
def std_copy_backward (buf : List α) (last d_last : Nat) : Nat → Option (List α)
  | 0 => some buf
  | n + 1 =>
    if last = 0 ∨ d_last = 0 then none
    else
      (ArrayPtr.read buf (last - 1)).bind fun x =>
        (ArrayPtr.write buf (d_last - 1) x).bind fun b =>
          std_copy_backward b (last - 1) (d_last - 1) n

/-- The algorithm `std::equal(first1, last1, first2, last2)` after its length
test: the elements are compared pair by pair with `==` and the first mismatch
ends the loop. -/
def std_equal_loop [DecidableEq α] (a : List α) (first1 : Nat) (b : List α) (first2 : Nat) :
    Nat → Option Bool
  | 0 => some true
  | n + 1 =>
    (ArrayPtr.read a first1).bind fun x =>
      (ArrayPtr.read b first2).bind fun y =>
        if x = y then std_equal_loop a (first1 + 1) b (first2 + 1) n else some false

/-- The algorithm `std::equal(first1, last1, first2, last2)` on random access
ranges of `n1` and `n2` elements: ranges of different length are unequal, ranges
of the same length are compared pair by pair. -/
def std_equal [DecidableEq α] (a : List α) (first1 n1 : Nat) (b : List α) (first2 n2 : Nat) :
    Option Bool :=
  if n1 ≠ n2 then some false else std_equal_loop a first1 b first2 n1

/-- The algorithm `std::lexicographical_compare(first1, last1, first2, last2)` on
ranges of `n1` and `n2` elements: while both ranges have elements, `*first1 <
*first2` answers `true`, `*first2 < *first1` answers `false`; at the end the
answer is `first1 == last1 && first2 != last2`. -/
def std_lexicographical_compare [LT α] [DecidableRel (fun x y : α => x < y)]
    (a : List α) (first1 : Nat) (b : List α) (first2 : Nat) : Nat → Nat → Option Bool
  | 0, n2 => some (decide (n2 ≠ 0))
  | _ + 1, 0 => some false
  | n1 + 1, n2 + 1 =>
    (ArrayPtr.read a first1).bind fun x =>
      (ArrayPtr.read b first2).bind fun y =>
        if x < y then some true
        else if y < x then some false
        else std_lexicographical_compare a (first1 + 1) b (first2 + 1) n1 n2

/-! ## Machine integers, positions and references -/

/-- The arithmetic of `size_t`: an unsigned result is reduced modulo `2 ^ 64`,
which is 18446744073709551616. -/
def size_t (n : Nat) : Nat :=
  n % 18446744073709551616

/-- The difference `n - 1` of `size_t`: `0 - 1` is `2 ^ 64 - 1`, which is
18446744073709551615. -/
def size_t_pred (n : Nat) : Nat :=
  if n = 0 then 18446744073709551615 else n - 1

/-- A position handed to `Insert`: the null pointer, or the pointer to the slot
at an offset of the buffer that the vector owns. -/
inductive Ptr where
  | null
  | slot (offset : Nat)
  deriving Repr, DecidableEq

/-- The comparison `p <= q` of two positions; the null pointer is below every
slot. -/
def Ptr.le : Ptr → Ptr → Bool
  | Ptr.null, _ => true
  | Ptr.slot _, Ptr.null => false
  | Ptr.slot i, Ptr.slot j => decide (i ≤ j)

/-- The position `p + k`. Arithmetic on the null pointer is not modelled: it
stays the null pointer. -/
def Ptr.add : Ptr → Nat → Ptr
  | Ptr.null, _ => Ptr.null
  | Ptr.slot i, k => Ptr.slot (i + k)

/-- The offset of a position from the start of the buffer. -/
def Ptr.offset : Ptr → Nat
  | Ptr.null => 0
  | Ptr.slot i => i

/-- An argument of type `const Type&`: a reference to an object outside the
buffer of the vector, or to the element in a slot of the buffer that the vector
owns when the call starts. -/
inductive Ref (α : Type) where
  | outside (x : α)
  | slot (i : Nat)
  deriving Repr, DecidableEq

/-- Reading through a reference when the buffer of the vector holds `buf`;
`freed` tells that the call has replaced and released the buffer it started
with, so that a reference into it dangles. -/
def Ref.read (r : Ref α) (buf : List α) (freed : Bool) : Option α :=
  match r with
  | Ref.outside x => some x
  | Ref.slot i => if freed then none else ArrayPtr.read buf i

/-- An element type whose `operator<` compares the `key` alone, while its
`operator==` compares both members. -/
structure Keyed where
  key : Nat
  tag : Nat
  deriving Repr, DecidableEq

instance : LT Keyed :=
  ⟨fun x y => x.key < y.key⟩

instance : DecidableRel (fun x y : Keyed => x < y) :=
  fun x y => inferInstanceAs (Decidable (x.key < y.key))

/-! ## The vector -/

/-- The three data members of `SimpleVector<Type>`. -/
structure SimpleVector (α : Type) where
  size_ : Nat
  capacity_ : Nat
  items_ : List α
  deriving Repr, DecidableEq

namespace SimpleVector

/-- The logical content: the slots at the offsets `0 .. size_ - 1`. -/
def toList (v : SimpleVector α) : List α :=
  v.items_.take v.size_

/-- The class invariant of the data model: the logical elements fit into the
capacity and the capacity is backed by allocated slots. -/
def Valid (v : SimpleVector α) : Prop :=
  v.size_ ≤ v.capacity_ ∧ v.capacity_ ≤ v.items_.length

instance (v : SimpleVector α) : Decidable v.Valid := by
  unfold Valid; infer_instance

/-- `SimpleVector() noexcept = default`. -/
def mk0 : SimpleVector α :=
  ⟨0, 0, []⟩

/-- `explicit SimpleVector(size_t size)`: the slots are allocated and then
assigned `Type{}` one by one. -/
def sized [Inhabited α] (junk : Nat → α) (size : Nat) : Option (SimpleVector α) :=
  (std_fill (ArrayPtr.alloc junk size) 0 default size).map fun buf => ⟨size, size, buf⟩

/-- `SimpleVector(size_t size, const Type& value)`. -/
def filled (junk : Nat → α) (size : Nat) (value : α) : Option (SimpleVector α) :=
  (std_fill (ArrayPtr.alloc junk size) 0 value size).map fun buf => ⟨size, size, buf⟩

/-- `SimpleVector(std::initializer_list<Type> init)`. -/
def ofList (junk : Nat → α) (init : List α) : Option (SimpleVector α) :=
  (std_copy init 0 (ArrayPtr.alloc junk init.length) 0 init.length).map fun buf =>
    ⟨init.length, init.length, buf⟩

/-- `SimpleVector(ReserveProxyObj proxy_obj)`: only `capacity_` is assigned;
`size_` keeps its initialiser `0` and `items_` is the default `ArrayPtr`. -/
def ofReserve (capacity_to_reserve : Nat) : SimpleVector α :=
  ⟨0, capacity_to_reserve, []⟩

/-- `SimpleVector(const SimpleVector& other)`: `size_(other.size_)`,
`capacity_(other.capacity_)`, `items_(other.size_)`, then the elements are
copied. -/
def copy (junk : Nat → α) (other : SimpleVector α) : Option (SimpleVector α) :=
  (std_copy other.items_ 0 (ArrayPtr.alloc junk other.size_) 0 other.size_).map fun buf =>
    ⟨other.size_, other.capacity_, buf⟩

/-- `GetSize`. -/
def GetSize (v : SimpleVector α) : Nat := v.size_

/-- `GetCapacity`. -/
def GetCapacity (v : SimpleVector α) : Nat := v.capacity_

/-- `IsEmpty`. -/
def IsEmpty (v : SimpleVector α) : Bool := v.size_ == 0

/-- `items_.Get()`: the start of the buffer, the null pointer when the vector has
no storage. -/
def Get (v : SimpleVector α) : Ptr :=
  if v.items_.isEmpty then Ptr.null else Ptr.slot 0

/-- The member `begin()` of a vector that is not `const`: `items_.Get()`. -/
def begin (v : SimpleVector α) : Ptr :=
  v.Get

/-- The member `end()` of a vector that is not `const`: `items_.Get() + size_`. -/
def end_ (v : SimpleVector α) : Ptr :=
  v.Get.add v.size_

/-- `cbegin()`, that is `begin() const`: `IsEmpty() ? nullptr : &items_[0]`. -/
def cbegin (v : SimpleVector α) : Ptr :=
  if v.IsEmpty then Ptr.null else v.Get

/-- `cend()`, that is `end() const`: `IsEmpty() ? nullptr : &items_[size_]`. -/
def cend (v : SimpleVector α) : Ptr :=
  if v.IsEmpty then Ptr.null else v.Get.add v.size_

/-- `operator[]`: the `assert` checks `index < size_`. -/
def index (v : SimpleVector α) (i : Nat) : Option α :=
  if i < v.size_ then ArrayPtr.read v.items_ i else none

/-- `Clear`. -/
def Clear (v : SimpleVector α) : SimpleVector α :=
  { v with size_ := 0 }

/-- `PopBack`: the `assert` checks that the vector is not empty. -/
def PopBack (v : SimpleVector α) : Option (SimpleVector α) :=
  if v.IsEmpty then none else some { v with size_ := v.size_ - 1 }

/-- `Reserve`: a vector `new_items(new_capacity)` is built, the first `size_`
elements are moved into it, the buffers are swapped and the two counters are
set. -/
def Reserve [Inhabited α] (junk : Nat → α) (v : SimpleVector α) (new_capacity : Nat) :
    Option (SimpleVector α) :=
  if new_capacity > v.capacity_ then
    (sized junk new_capacity).bind fun new_items =>
      (std_copy v.items_ 0 new_items.items_ 0 v.size_).map fun buf =>
        ⟨v.size_, new_capacity, buf⟩
  else some v

/-- Tells whether `Reserve(new_capacity)` replaces the buffer: the swap with
`new_items`, whose destructor then releases the old buffer. -/
def Reserve_frees (v : SimpleVector α) (new_capacity : Nat) : Bool :=
  decide (new_capacity > v.capacity_)

/-- `Resize`. In the second branch the loop runs from `end()` up to, and not
including, `&items_[new_size - 1]`; in the last branch `capacity_ * 2` is a
product of `size_t`. -/
def Resize [Inhabited α] (junk : Nat → α) (v : SimpleVector α) (new_size : Nat) :
    Option (SimpleVector α) :=
  if new_size < v.size_ then some { v with size_ := new_size }
  else if new_size > v.size_ ∧ new_size < v.capacity_ then
    (std_fill v.items_ v.size_ default (new_size - 1 - v.size_)).map fun buf =>
      ⟨new_size, v.capacity_, buf⟩
  else
    let new_capacity := max new_size (size_t (v.capacity_ * 2))
    (Reserve junk v new_capacity).map fun w => ⟨new_size, new_capacity, w.items_⟩

/-- Tells whether `Resize(new_size)` replaces the buffer: it does in its last
branch, when the `Reserve` there does. -/
def Resize_frees (v : SimpleVector α) (new_size : Nat) : Bool :=
  if new_size < v.size_ then false
  else if new_size > v.size_ ∧ new_size < v.capacity_ then false
  else Reserve_frees v (max new_size (size_t (v.capacity_ * 2)))

/-- `PushBack(const Type& item)`: `item` is read when it is assigned, in the
second branch after `Resize(size_ + 1)`. In the first branch `size_ + 1` is at
most `capacity_`; in the second `size_ + 1` and `size_ - 1` are a sum and a
difference of `size_t`. -/
def PushBack [Inhabited α] (junk : Nat → α) (v : SimpleVector α) (item : Ref α) :
    Option (SimpleVector α) :=
  if v.size_ < v.capacity_ then
    (item.read v.items_ false).bind fun x =>
      (ArrayPtr.write v.items_ v.size_ x).map fun buf => ⟨v.size_ + 1, v.capacity_, buf⟩
  else
    (Resize junk v (size_t (v.size_ + 1))).bind fun w =>
      (item.read w.items_ (Resize_frees v (size_t (v.size_ + 1)))).bind fun x =>
        (ArrayPtr.write w.items_ (size_t_pred w.size_) x).map fun buf =>
          { w with items_ := buf }

/-- `Erase(ConstIterator pos)`; `pos` is the offset of the position. The `assert`
compares the position with `cbegin()` and `cend()`: on an empty vector it fails
whatever the position, on a non-empty vector it is the check `pos < size_` of
the offset. The result is the vector and the offset of the returned position. -/
def Erase (v : SimpleVector α) (pos : Nat) : Option (SimpleVector α × Nat) :=
  if pos < v.size_ then
    (if pos = 0 then std_move v.items_ (pos + 1) 0 (v.size_ - (pos + 1))
     else if pos < v.size_ - 1 then
       std_copy_backward v.items_ v.size_ (v.size_ - 1) (v.size_ - (pos + 1))
     else some v.items_).map fun buf =>
      (⟨v.size_ - 1, v.capacity_, buf⟩, if v.size_ - 1 = 0 then v.size_ - 1 else pos)
  else none

/-- `Insert(ConstIterator pos, const Type& value)`. The `assert` compares `pos`
with `cbegin()` and `cend()`; `value` is read when it is assigned, after
`Resize` and `std::copy_backward`. The result is the vector and the offset of
the returned position. -/
def Insert [Inhabited α] (junk : Nat → α) (v : SimpleVector α) (pos : Ptr) (value : Ref α) :
    Option (SimpleVector α × Nat) :=
  if Ptr.le v.cbegin pos ∧ Ptr.le pos v.cend then
    if v.IsEmpty then (PushBack junk v value).map fun w => (w, 0)
    else
      let it_dist := pos.offset - v.cbegin.offset
      (if v.size_ = v.capacity_ then Resize junk v v.size_ else some v).bind fun w =>
        (std_copy_backward w.items_ w.size_ (w.size_ + 1) (w.size_ - it_dist)).bind fun buf =>
          (value.read buf (decide (v.size_ = v.capacity_) && Resize_frees v v.size_)).bind
            fun x =>
              (ArrayPtr.write buf it_dist x).map fun buf2 =>
                (⟨size_t (w.size_ + 1), w.capacity_, buf2⟩, it_dist)
  else none

/-- The member `swap(SimpleVector& other)`: the three members are exchanged. The
result is the pair of this vector and `other` after the call. -/
def swap (v other : SimpleVector α) : SimpleVector α × SimpleVector α :=
  (⟨other.size_, other.capacity_, other.items_⟩, ⟨v.size_, v.capacity_, v.items_⟩)

/-- The copy assignment `operator=(const SimpleVector& rhs)` for `&rhs != this`: a
copy `tmp` of `rhs` is built and swapped with this vector. (For `&rhs == this`
the vector is left as it is.) -/
def assign (junk : Nat → α) (v rhs : SimpleVector α) : Option (SimpleVector α) :=
  (copy junk rhs).map fun tmp => (swap tmp v).2

/-- The move constructor `SimpleVector(SimpleVector&& other)`: the members of
`other` are taken with `std::exchange`. The result is the pair of the new vector
and `other` after the call. -/
def moveCtor (other : SimpleVector α) : SimpleVector α × SimpleVector α :=
  (⟨other.size_, other.capacity_, other.items_⟩, ⟨0, 0, []⟩)

/-- The move assignment `operator=(SimpleVector&& other)` for `&other != this`.
The result is the pair of this vector and `other` after the call. -/
def moveAssign (_v other : SimpleVector α) : SimpleVector α × SimpleVector α :=
  (⟨other.size_, other.capacity_, other.items_⟩, ⟨0, 0, []⟩)

/-- The error of `At`: the exception `std::out_of_range`. -/
inductive AccessError where
  | out_of_range
  deriving Repr, DecidableEq

/-- `At(size_t index)`: throws for `index >= size_`, otherwise reads
`items_[index]`. -/
def At (v : SimpleVector α) (index : Nat) : Option (Except AccessError α) :=
  if index ≥ v.size_ then some (Except.error AccessError.out_of_range)
  else (ArrayPtr.read v.items_ index).map Except.ok

/-- `operator==`: `std::equal` over `[begin(), end())` of both vectors. -/
def op_eq [DecidableEq α] (lhs rhs : SimpleVector α) : Option Bool :=
  std_equal lhs.items_ 0 lhs.size_ rhs.items_ 0 rhs.size_

/-- `operator!=`: `!(lhs == rhs)`. -/
def op_ne [DecidableEq α] (lhs rhs : SimpleVector α) : Option Bool :=
  (op_eq lhs rhs).map not

/-- `operator<`: `std::lexicographical_compare` over `[cbegin(), cend())` of both
vectors. -/
def op_lt [LT α] [DecidableRel (fun x y : α => x < y)] (lhs rhs : SimpleVector α) :
    Option Bool :=
  std_lexicographical_compare lhs.items_ 0 rhs.items_ 0 lhs.size_ rhs.size_

/-- `operator<=`: `!(rhs < lhs)`. -/
def op_le [LT α] [DecidableRel (fun x y : α => x < y)] (lhs rhs : SimpleVector α) :
    Option Bool :=
  (op_lt rhs lhs).map not

/-- `operator>`: `rhs < lhs`. -/
def op_gt [LT α] [DecidableRel (fun x y : α => x < y)] (lhs rhs : SimpleVector α) :
    Option Bool :=
  op_lt rhs lhs

/-- `operator>=`: `!(rhs > lhs)`. -/
def op_ge [LT α] [DecidableRel (fun x y : α => x < y)] (lhs rhs : SimpleVector α) :
    Option Bool :=
  (op_gt rhs lhs).map not

/-- Consecutive calls `PushBack(x)` for the arguments `x` of a list, in order. -/
def PushBackAll [Inhabited α] (junk : Nat → α) (v : SimpleVector α) :
    List (Ref α) → Option (SimpleVector α)
  | [] => some v
  | x :: xs => (PushBack junk v x).bind fun w => PushBackAll junk w xs

/-- The vectors a program can hold: those built by a constructor and those left
by a call of a mutator, within its precondition, on such vectors. The buffer
that `Insert` leaves is an array, and no array has `2 ^ 63` or more elements. -/
inductive Reachable [Inhabited α] : SimpleVector α → Prop
  | default : Reachable mk0
  | sized (junk : Nat → α) (n : Nat) (w : SimpleVector α) :
      sized junk n = some w → Reachable w
  | filled (junk : Nat → α) (n : Nat) (x : α) (w : SimpleVector α) :
      filled junk n x = some w → Reachable w
  | ofList (junk : Nat → α) (init : List α) (w : SimpleVector α) :
      ofList junk init = some w → Reachable w
  | ofReserve (n : Nat) : Reachable (ofReserve n)
  | copy (junk : Nat → α) (v w : SimpleVector α) :
      Reachable v → copy junk v = some w → Reachable w
  | moveCtor_new (v : SimpleVector α) : Reachable v → Reachable (moveCtor v).1
  | moveCtor_source (v : SimpleVector α) : Reachable v → Reachable (moveCtor v).2
  | PushBack (junk : Nat → α) (v : SimpleVector α) (x : Ref α) (w : SimpleVector α) :
      Reachable v → PushBack junk v x = some w → Reachable w
  | PopBack (v w : SimpleVector α) : Reachable v → PopBack v = some w → Reachable w
  | Insert (junk : Nat → α) (v : SimpleVector α) (pos : Ptr) (x : Ref α)
      (w : SimpleVector α) (p : Nat) :
      Reachable v → Insert junk v pos x = some (w, p) → w.items_.length < 2 ^ 63 →
      Reachable w
  | Erase (v : SimpleVector α) (pos : Nat) (w : SimpleVector α) (p : Nat) :
      Reachable v → Erase v pos = some (w, p) → Reachable w
  | Resize (junk : Nat → α) (v : SimpleVector α) (n : Nat) (w : SimpleVector α) :
      Reachable v → Resize junk v n = some w → Reachable w
  | Reserve (junk : Nat → α) (v : SimpleVector α) (n : Nat) (w : SimpleVector α) :
      Reachable v → Reserve junk v n = some w → Reachable w
  | Clear (v : SimpleVector α) : Reachable v → Reachable (Clear v)
  | swap_this (v o : SimpleVector α) : Reachable v → Reachable o → Reachable (swap v o).1
  | swap_other (v o : SimpleVector α) : Reachable v → Reachable o → Reachable (swap v o).2
  | assign (junk : Nat → α) (v rhs w : SimpleVector α) :
      Reachable v → Reachable rhs → assign junk v rhs = some w → Reachable w
  | moveAssign_this (v o : SimpleVector α) :
      Reachable v → Reachable o → Reachable (moveAssign v o).1
  | moveAssign_source (v o : SimpleVector α) :
      Reachable v → Reachable o → Reachable (moveAssign v o).2

end SimpleVector

/-! ## The buffer algorithms, slot by slot -/

theorem ArrayPtr.write_of_lt (buf : List α) (i : Nat) (x : α) (h : i < buf.length) :
    ArrayPtr.write buf i x = some (buf.set i x) := by
  simp [ArrayPtr.write, h]

theorem ArrayPtr.read_of_lt (buf : List α) (i : Nat) (h : i < buf.length) :
    ArrayPtr.read buf i = some (buf.get ⟨i, h⟩) := by
  simp [ArrayPtr.read, List.getElem?_eq_getElem h]

theorem std_fill_slots (x : α) (n : Nat) : ∀ (buf : List α) (first : Nat),
    first + n ≤ buf.length →
    ∃ r, std_fill buf first x n = some r ∧ r.length = buf.length ∧
      ∀ j, r[j]? = if first ≤ j ∧ j < first + n then some x else buf[j]? := by
  induction n with
  | zero =>
    intro buf first _
    refine ⟨buf, rfl, rfl, fun j => ?_⟩
    rw [if_neg]; omega
  | succ n ih =>
    intro buf first h
    have hlt : first < buf.length := by omega
    obtain ⟨r, hr, hlen, hget⟩ := ih (buf.set first x) (first + 1) (by simp; omega)
    refine ⟨r, ?_, by simpa using hlen, fun j => ?_⟩
    · simp [std_fill, ArrayPtr.write_of_lt _ _ _ hlt, hr]
    · rw [hget j, List.getElem?_set]
      by_cases h1 : first = j
      · subst h1
        simp [hlt]
      · by_cases h2 : first + 1 ≤ j ∧ j < first + 1 + n
        · have h3 : first ≤ j ∧ j < first + (n + 1) := by omega
          simp [h2, h3]
        · have h3 : ¬ (first ≤ j ∧ j < first + (n + 1)) := by omega
          simp [h1, h2, h3]

theorem std_copy_slots (src : List α) (n : Nat) : ∀ (first : Nat) (dst : List α) (d : Nat),
    first + n ≤ src.length → d + n ≤ dst.length →
    ∃ r, std_copy src first dst d n = some r ∧ r.length = dst.length ∧
      ∀ j, r[j]? = if d ≤ j ∧ j < d + n then src[first + (j - d)]? else dst[j]? := by
  induction n with
  | zero =>
    intro first dst d _ _
    refine ⟨dst, rfl, rfl, fun j => ?_⟩
    rw [if_neg]; omega
  | succ n ih =>
    intro first dst d hs hd
    have hfirst : first < src.length := by omega
    have hdlt : d < dst.length := by omega
    obtain ⟨r, hr, hlen, hget⟩ :=
      ih (first + 1) (dst.set d (src.get ⟨first, hfirst⟩)) (d + 1) (by omega) (by simp; omega)
    refine ⟨r, ?_, by simpa using hlen, fun j => ?_⟩
    · simp [std_copy, ArrayPtr.read_of_lt _ _ hfirst, ArrayPtr.write_of_lt _ _ _ hdlt]
      simpa using hr
    · rw [hget j, List.getElem?_set]
      by_cases h1 : d = j
      · subst h1
        have h3 : ¬ (d + 1 ≤ d ∧ d < d + 1 + n) := by omega
        simp [hdlt, h3, List.getElem?_eq_getElem hfirst]
      · by_cases h2 : d + 1 ≤ j ∧ j < d + 1 + n
        · have h3 : d ≤ j ∧ j < d + (n + 1) := by omega
          have h4 : first + 1 + (j - (d + 1)) = first + (j - d) := by omega
          simp [h2, h3, h4]
        · have h3 : ¬ (d ≤ j ∧ j < d + (n + 1)) := by omega
          simp [h1, h2, h3]

theorem std_copy_backward_slots (n : Nat) : ∀ (buf : List α) (last d_last : Nat),
    n ≤ last → last ≤ d_last → d_last ≤ buf.length →
    ∃ r, std_copy_backward buf last d_last n = some r ∧ r.length = buf.length ∧
      ∀ j, r[j]? = if d_last - n ≤ j ∧ j < d_last then buf[j - (d_last - last)]? else buf[j]? := by
  induction n with
  | zero =>
    intro buf last d_last _ _ _
    refine ⟨buf, rfl, rfl, fun j => ?_⟩
    rw [if_neg]; omega
  | succ n ih =>
    intro buf last d_last hn hle hd
    have hlast : last - 1 < buf.length := by omega
    have hdl : d_last - 1 < buf.length := by omega
    have hne : ¬ (last = 0 ∨ d_last = 0) := by omega
    obtain ⟨r, hr, hlen, hget⟩ :=
      ih (buf.set (d_last - 1) (buf.get ⟨last - 1, hlast⟩)) (last - 1) (d_last - 1)
        (by omega) (by omega) (by simp; omega)
    refine ⟨r, ?_, by simpa using hlen, fun j => ?_⟩
    · simp [std_copy_backward, hne, ArrayPtr.read_of_lt _ _ hlast,
        ArrayPtr.write_of_lt _ _ _ hdl]
      simpa using hr
    · rw [hget j]
      by_cases h1 : d_last - 1 = j
      · subst h1
        have h3 : ¬ (d_last - 1 - n ≤ d_last - 1 ∧ d_last - 1 < d_last - 1) := by omega
        have h4 : d_last - (n + 1) ≤ d_last - 1 ∧ d_last - 1 < d_last := by omega
        have h5 : d_last - 1 - (d_last - last) = last - 1 := by omega
        simp [h3, h4, h5, hdl, List.getElem?_eq_getElem hlast]
      · by_cases h2 : d_last - 1 - n ≤ j ∧ j < d_last - 1
        · have h3 : d_last - (n + 1) ≤ j ∧ j < d_last := by omega
          have h4 : j - (d_last - 1 - (last - 1)) = j - (d_last - last) := by omega
          have h5 : d_last - 1 ≠ j - (d_last - last) := by omega
          simp [h2, h3, h4, List.getElem?_set, h5]
        · have h3 : ¬ (d_last - (n + 1) ≤ j ∧ j < d_last) := by omega
          rw [if_neg h2, if_neg h3, List.getElem?_set_ne h1]

/-! ## The operations on the buffer of a vector -/

theorem ArrayPtr.alloc_length (junk : Nat → α) (n : Nat) :
    (ArrayPtr.alloc junk n).length = n := by
  simp [ArrayPtr.alloc]

theorem getElem?_take_insert (l : List α) (pos : Nat) (x : α) (h : pos ≤ l.length) (j : Nat) :
    (l.take pos ++ x :: l.drop pos)[j]? =
      if j < pos then l[j]? else if j = pos then some x else l[j - 1]? := by
  have hlen : (l.take pos).length = pos := by simp [h]
  by_cases h1 : j < pos
  · rw [if_pos h1, List.getElem?_append_left (by omega), List.getElem?_take_of_lt h1]
  · rw [if_neg h1, List.getElem?_append_right (by omega), hlen]
    by_cases h2 : j = pos
    · subst h2
      simp
    · rw [if_neg h2]
      obtain ⟨k, hk⟩ : ∃ k, j - pos = k + 1 := ⟨j - pos - 1, by omega⟩
      rw [hk, List.getElem?_cons_succ, List.getElem?_drop]
      congr 1
      omega

namespace SimpleVector

theorem getElem?_toList (v : SimpleVector α) (j : Nat) :
    v.toList[j]? = if j < v.size_ then v.items_[j]? else none := by
  simp [toList, List.getElem?_take]

theorem sized_eq [Inhabited α] (junk : Nat → α) (n : Nat) :
    sized junk n = some ⟨n, n, List.replicate n default⟩ := by
  obtain ⟨r, hr, hlen, hget⟩ :=
    std_fill_slots (default : α) n (ArrayPtr.alloc junk n) 0 (by simp [ArrayPtr.alloc_length])
  have hrep : r = List.replicate n default := by
    apply List.ext_getElem?
    intro j
    rw [hget j, List.getElem?_replicate]
    by_cases h : j < n
    · have h2 : 0 ≤ j ∧ j < 0 + n := by omega
      rw [if_pos h2, if_pos h]
    · have h2 : ¬ (0 ≤ j ∧ j < 0 + n) := by omega
      rw [if_neg h2, if_neg h]
      exact List.getElem?_eq_none (by simp [ArrayPtr.alloc_length]; omega)
  simp [sized, hr, hrep]

/-- What `Reserve` does when it reallocates: the first `size_` slots are kept, the
others hold `Type{}`. -/
theorem Reserve_realloc [Inhabited α] (junk : Nat → α) (v : SimpleVector α) (nc : Nat)
    (hc : v.capacity_ < nc) (hs : v.size_ ≤ nc) (hbuf : v.size_ ≤ v.items_.length) :
    ∃ buf, Reserve junk v nc = some ⟨v.size_, nc, buf⟩ ∧ buf.length = nc ∧
      ∀ j, buf[j]? = if j < v.size_ then v.items_[j]?
        else if j < nc then some default else none := by
  obtain ⟨r, hr, hlen, hget⟩ :=
    std_copy_slots v.items_ v.size_ 0 (List.replicate nc (default : α)) 0
      (by omega) (by simp; omega)
  refine ⟨r, ?_, by simpa using hlen, fun j => ?_⟩
  · simp [Reserve, hc, sized_eq, hr]
  · rw [hget j, List.getElem?_replicate]
    by_cases h : j < v.size_
    · have h2 : 0 ≤ j ∧ j < 0 + v.size_ := by omega
      rw [if_pos h2, if_pos h]
      congr 1
      omega
    · have h2 : ¬ (0 ≤ j ∧ j < 0 + v.size_) := by omega
      rw [if_neg h2, if_neg h]

theorem size_t_of_lt (n : Nat) (h : n < 2 ^ 64) : size_t n = n := by
  unfold size_t
  omega

theorem size_t_le (n : Nat) : size_t n ≤ n := by
  unfold size_t
  exact Nat.mod_le _ _

/-- What the last branch of `Resize` does when its `Reserve` reallocates. -/
theorem Resize_realloc [Inhabited α] (junk : Nat → α) (v : SimpleVector α) (new_size : Nat)
    (h1 : v.size_ ≤ new_size) (h2 : v.capacity_ ≤ new_size ∨ new_size = v.size_)
    (h3 : v.capacity_ < max new_size (size_t (v.capacity_ * 2)))
    (hbuf : v.size_ ≤ v.items_.length) :
    ∃ buf, Resize junk v new_size
        = some ⟨new_size, max new_size (size_t (v.capacity_ * 2)), buf⟩ ∧
      buf.length = max new_size (size_t (v.capacity_ * 2)) ∧
      ∀ j, buf[j]? = if j < v.size_ then v.items_[j]?
        else if j < max new_size (size_t (v.capacity_ * 2)) then some default else none := by
  obtain ⟨buf, hr, hlen, hget⟩ :=
    Reserve_realloc junk v (max new_size (size_t (v.capacity_ * 2))) h3
      (le_trans h1 (le_max_left _ _)) hbuf
  refine ⟨buf, ?_, hlen, hget⟩
  have hb1 : ¬ new_size < v.size_ := by omega
  have hb2 : ¬ (new_size > v.size_ ∧ new_size < v.capacity_) := by omega
  simp only [Resize, if_neg hb1, if_neg hb2, hr, Option.map_some']

/-- What `PushBack` of an object outside the buffer does on a vector that
satisfies the class invariant and whose doubled capacity fits `size_t`. -/
theorem PushBack_valid [Inhabited α] (junk : Nat → α) (v : SimpleVector α) (item : α)
    (hv : v.Valid) (hcap : v.capacity_ * 2 < 2 ^ 64) :
    ∃ w, PushBack junk v (Ref.outside item) = some w ∧ w.size_ = v.size_ + 1 ∧
      w.toList = v.toList ++ [item] ∧ w.Valid ∧
      w.capacity_ = if v.size_ < v.capacity_ then v.capacity_
        else max (v.size_ + 1) (v.capacity_ * 2) := by
  obtain ⟨hsc, hcl⟩ := hv
  by_cases hlt : v.size_ < v.capacity_
  · refine ⟨⟨v.size_ + 1, v.capacity_, v.items_.set v.size_ item⟩, ?_, rfl, ?_, ?_, ?_⟩
    · simp [PushBack, hlt, Ref.read,
        ArrayPtr.write_of_lt _ _ _ (show v.size_ < v.items_.length by omega)]
    · apply List.ext_getElem?
      intro j
      have hl : v.toList.length = v.size_ := by simp [toList]; omega
      rw [getElem?_toList, List.getElem?_append, hl, getElem?_toList]
      simp only [List.getElem?_set]
      by_cases hj : j < v.size_
      · have : v.size_ ≠ j := by omega
        simp [hj, this, show j < v.size_ + 1 by omega]
      · by_cases hj2 : j = v.size_
        · subst hj2
          simp [show v.size_ < v.items_.length by omega]
        · have h4 : ¬ j < v.size_ + 1 := by omega
          have h5 : 1 ≤ j - v.size_ := by omega
          simp [hj, h4, List.getElem?_eq_none, h5]
    · exact ⟨by simp; omega, by simp; omega⟩
    · simp [hlt]
  · have heq : v.size_ = v.capacity_ := by omega
    have e1 : size_t (v.size_ + 1) = v.size_ + 1 := size_t_of_lt _ (by omega)
    have e2 : size_t (v.capacity_ * 2) = v.capacity_ * 2 := size_t_of_lt _ hcap
    have e3 : size_t_pred (v.size_ + 1) = v.size_ := by
      unfold size_t_pred
      rw [if_neg (Nat.succ_ne_zero _)]
      rfl
    obtain ⟨buf, hr, hlen, hget⟩ :=
      Resize_realloc junk v (v.size_ + 1) (by omega) (by omega)
        (lt_of_lt_of_le (by omega) (le_max_left _ _)) (by omega)
    rw [e2] at hr hlen hget
    have hmax : v.size_ + 1 ≤ max (v.size_ + 1) (v.capacity_ * 2) := le_max_left _ _
    refine ⟨⟨v.size_ + 1, max (v.size_ + 1) (v.capacity_ * 2), buf.set v.size_ item⟩,
      ?_, rfl, ?_, ?_, ?_⟩
    · simp only [PushBack, if_neg hlt, e1, hr, Option.some_bind, Ref.read, e3,
        ArrayPtr.write_of_lt _ _ _ (show v.size_ < buf.length by omega), Option.map_some']
    · apply List.ext_getElem?
      intro j
      have hl : v.toList.length = v.size_ := by simp [toList]; omega
      rw [getElem?_toList, List.getElem?_append, hl, getElem?_toList]
      simp only [List.getElem?_set]
      by_cases hj : j < v.size_
      · have : v.size_ ≠ j := by omega
        simp [hj, this, show j < v.size_ + 1 by omega, hget j]
      · by_cases hj2 : j = v.size_
        · subst hj2
          simp [show v.size_ < buf.length by omega]
        · have h4 : ¬ j < v.size_ + 1 := by omega
          have h5 : 1 ≤ j - v.size_ := by omega
          simp [hj, h4, List.getElem?_eq_none, h5]
    · exact ⟨hmax, by simp; omega⟩
    · simp [hlt]

theorem Get_of_storage (v : SimpleVector α) (h : 0 < v.items_.length) : v.Get = Ptr.slot 0 := by
  have hne : v.items_.isEmpty = false := by
    cases hi : v.items_ with
    | nil => rw [hi] at h; exact absurd h (Nat.lt_irrefl 0)
    | cons x xs => rfl
  simp only [Get, hne, Bool.false_eq_true, if_false]

/-- What `Insert` of an object outside the buffer at the position `cbegin() + k`
does on a vector that satisfies the class invariant and whose doubled capacity
fits `size_t`. -/
theorem Insert_valid [Inhabited α] (junk : Nat → α) (v : SimpleVector α) (k : Nat)
    (value : α) (hv : v.Valid) (hcap : v.capacity_ * 2 < 2 ^ 64) (hpos : k ≤ v.size_) :
    ∃ w, Insert junk v (v.cbegin.add k) (Ref.outside value) = some (w, k) ∧
      w.size_ = v.size_ + 1 ∧
      w.toList = v.toList.take k ++ value :: v.toList.drop k ∧ w.Valid ∧
      w.capacity_ = if v.size_ = v.capacity_ then max (v.size_ + 1) (v.capacity_ * 2)
        else v.capacity_ := by
  by_cases hempty : v.size_ = 0
  · obtain ⟨w, hw, hsz, hl, hval, hcap2⟩ := PushBack_valid junk v value hv hcap
    have hp0 : k = 0 := by omega
    subst hp0
    refine ⟨w, ?_, hsz, ?_, hval, ?_⟩
    · simp [Insert, cbegin, cend, IsEmpty, hempty, Ptr.add, Ptr.le, hw]
    · have : v.toList = [] := by simp [toList, hempty]
      simp [hl, this]
    · rw [hcap2]
      by_cases h : v.size_ < v.capacity_
      · rw [if_pos h, if_neg (by omega)]
      · rw [if_neg h, if_pos (by have := hv.1; omega)]
  · obtain ⟨hsc, hcl⟩ := hv
    have hGet := Get_of_storage v (by omega)
    have hcb : v.cbegin = Ptr.slot 0 := by
      simp only [cbegin, IsEmpty, beq_iff_eq, hempty, if_false, hGet]
    have hce : v.cend = Ptr.slot (0 + v.size_) := by
      simp only [cend, IsEmpty, beq_iff_eq, hempty, if_false, hGet]
      rfl
    have hassert : (Ptr.le v.cbegin (v.cbegin.add k) = true ∧
        Ptr.le (v.cbegin.add k) v.cend = true) := by
      rw [hcb, hce]
      simp only [Ptr.add, Ptr.le, decide_eq_true_eq]
      omega
    have hdist : (v.cbegin.add k).offset - v.cbegin.offset = k := by
      rw [hcb]
      simp only [Ptr.add, Ptr.offset]
      omega
    have e2 : size_t (v.capacity_ * 2) = v.capacity_ * 2 := size_t_of_lt _ hcap
    have e1 : size_t (v.size_ + 1) = v.size_ + 1 := size_t_of_lt _ (by omega)
    have hgrow : ∃ c buf0,
        (if v.size_ = v.capacity_ then Resize junk v v.size_ else some v)
          = some ⟨v.size_, c, buf0⟩ ∧ v.size_ + 1 ≤ c ∧ c ≤ buf0.length ∧
        (∀ j, j < v.size_ → buf0[j]? = v.items_[j]?) ∧
        c = if v.size_ = v.capacity_ then max (v.size_ + 1) (v.capacity_ * 2)
          else v.capacity_ := by
      by_cases hfull : v.size_ = v.capacity_
      · obtain ⟨buf, hr, hlen, hget⟩ :=
          Resize_realloc junk v v.size_ (le_refl _) (Or.inr rfl)
            (by rw [e2]; exact lt_of_lt_of_le (by omega) (le_max_right _ _)) (by omega)
        rw [e2] at hr hlen hget
        have hmax : max v.size_ (v.capacity_ * 2) = max (v.size_ + 1) (v.capacity_ * 2) := by
          rw [max_eq_right (by omega), max_eq_right (by omega)]
        refine ⟨max v.size_ (v.capacity_ * 2), buf, ?_, ?_, by omega, ?_, ?_⟩
        · rw [if_pos hfull, hr]
        · rw [hmax]
          exact le_max_left _ _
        · intro j hj
          rw [hget j, if_pos hj]
        · rw [if_pos hfull, hmax]
      · refine ⟨v.capacity_, v.items_, ?_, by omega, hcl, fun _ _ => rfl, ?_⟩
        · rw [if_neg hfull]
        · rw [if_neg hfull]
    obtain ⟨c, buf0, hg, hc1, hc2, hkeep, hceq⟩ := hgrow
    obtain ⟨r, hr, hlen, hget⟩ :=
      std_copy_backward_slots (v.size_ - k) buf0 v.size_ (v.size_ + 1)
        (by omega) (by omega) (by omega)
    have hposlt : k < r.length := by omega
    refine ⟨⟨v.size_ + 1, c, r.set k value⟩, ?_, rfl, ?_, ?_, hceq⟩
    · simp only [Insert, hassert, and_self, if_true, IsEmpty, beq_iff_eq, hempty, if_false,
        hdist, hg, Option.some_bind, hr, Ref.read, ArrayPtr.write_of_lt _ _ _ hposlt,
        Option.map_some', e1]
    · apply List.ext_getElem?
      intro j
      have hl : v.toList.length = v.size_ := by simp [toList]; omega
      have hL : (SimpleVector.mk (v.size_ + 1) c (r.set k value)).toList[j]? =
          if j < v.size_ + 1 then (if k = j then some value else r[j]?) else none := by
        rw [getElem?_toList, List.getElem?_set, if_pos hposlt]
      have hR : (v.toList.take k ++ value :: v.toList.drop k)[j]? =
          if j < k then v.items_[j]? else if j = k then some value
            else if j - 1 < v.size_ then v.items_[j - 1]? else none := by
        rw [getElem?_take_insert _ _ _ (by omega), getElem?_toList, getElem?_toList]
        by_cases h1 : j < k
        · rw [if_pos h1, if_pos h1, if_pos (by omega)]
        · rw [if_neg h1, if_neg h1]
      rw [hL, hR]
      by_cases h1 : j < k
      · have ha : ¬ (v.size_ + 1 - (v.size_ - k) ≤ j ∧ j < v.size_ + 1) := by omega
        rw [if_pos (by omega), if_neg (by omega), hget j, if_neg ha, if_pos h1,
          hkeep j (by omega)]
      · rw [if_neg h1]
        by_cases h2 : j = k
        · rw [if_pos h2, if_pos (by omega), if_pos h2.symm]
        · rw [if_neg h2]
          by_cases h3 : j < v.size_ + 1
          · have ha : v.size_ + 1 - (v.size_ - k) ≤ j ∧ j < v.size_ + 1 := by omega
            have hb : j - (v.size_ + 1 - v.size_) = j - 1 := by omega
            rw [if_pos h3, if_neg (by omega), hget j, if_pos ha, if_pos (by omega), hb,
              hkeep (j - 1) (by omega)]
          · rw [if_neg h3, if_neg (by omega)]
    · exact ⟨hc1, by simp; omega⟩

/-- What `Resize` does on a vector that satisfies the class invariant: the new
size is set, the invariant is kept, and the slots below both the old and the
new size keep their values. -/
theorem Resize_valid [Inhabited α] (junk : Nat → α) (v : SimpleVector α) (new_size : Nat)
    (hv : v.Valid) :
    ∃ w, Resize junk v new_size = some w ∧ w.size_ = new_size ∧ w.Valid ∧
      ∀ j, j < v.size_ → j < new_size → w.items_[j]? = v.items_[j]? := by
  obtain ⟨hsc, hcl⟩ := hv
  by_cases hb1 : new_size < v.size_
  · refine ⟨{ v with size_ := new_size }, ?_, rfl, ⟨?_, hcl⟩, fun _ _ _ => rfl⟩
    · simp only [Resize, if_pos hb1]
    · show new_size ≤ v.capacity_
      omega
  · by_cases hb2 : new_size > v.size_ ∧ new_size < v.capacity_
    · obtain ⟨r, hr, hlen, hget⟩ :=
        std_fill_slots (default : α) (new_size - 1 - v.size_) v.items_ v.size_ (by omega)
      refine ⟨⟨new_size, v.capacity_, r⟩, ?_, rfl, ⟨?_, ?_⟩, fun j hj _ => ?_⟩
      · simp only [Resize, if_neg hb1, if_pos hb2, hr, Option.map_some']
      · show new_size ≤ v.capacity_
        omega
      · show v.capacity_ ≤ r.length
        omega
      · show r[j]? = v.items_[j]?
        rw [hget j, if_neg (by omega)]
    · by_cases hb3 : v.capacity_ < max new_size (size_t (v.capacity_ * 2))
      · obtain ⟨buf, hr, hlen, hget⟩ :=
          Resize_realloc junk v new_size (by omega) (by omega) hb3 (by omega)
        refine ⟨_, hr, rfl, ⟨le_max_left _ _, ?_⟩, fun j hj _ => ?_⟩
        · show max new_size (size_t (v.capacity_ * 2)) ≤ buf.length
          omega
        · show buf[j]? = v.items_[j]?
          rw [hget j, if_pos hj]
      · have hle : max new_size (size_t (v.capacity_ * 2)) ≤ v.capacity_ := by omega
        have hno : ¬ max new_size (size_t (v.capacity_ * 2)) > v.capacity_ := by omega
        refine ⟨⟨new_size, max new_size (size_t (v.capacity_ * 2)), v.items_⟩, ?_, rfl,
          ⟨?_, ?_⟩, fun _ _ _ => rfl⟩
        · simp only [Resize, if_neg hb1, if_neg hb2, Reserve, if_neg hno, Option.map_some']
        · exact le_max_left _ _
        · show max new_size (size_t (v.capacity_ * 2)) ≤ v.items_.length
          omega

/-- What the copy constructor builds: the counters of the source and a buffer of
`size_` slots holding the elements of the source. -/
theorem copy_eq (junk : Nat → α) (v : SimpleVector α) (hbuf : v.size_ ≤ v.items_.length) :
    copy junk v = some ⟨v.size_, v.capacity_, v.toList⟩ := by
  obtain ⟨r, hr, hlen, hget⟩ :=
    std_copy_slots v.items_ v.size_ 0 (ArrayPtr.alloc junk v.size_) 0 (by omega)
      (by simp [ArrayPtr.alloc_length])
  have hrl : r = v.toList := by
    apply List.ext_getElem?
    intro j
    rw [hget j, getElem?_toList]
    by_cases h : j < v.size_
    · rw [if_pos (by omega), if_pos h]
      congr 1
      omega
    · rw [if_neg (by omega), if_neg h]
      exact List.getElem?_eq_none (by simp [ArrayPtr.alloc_length]; omega)
  simp [copy, hr, hrl]

theorem filled_eq (junk : Nat → α) (n : Nat) (x : α) :
    filled junk n x = some ⟨n, n, List.replicate n x⟩ := by
  obtain ⟨r, hr, hlen, hget⟩ :=
    std_fill_slots x n (ArrayPtr.alloc junk n) 0 (by simp [ArrayPtr.alloc_length])
  have hrep : r = List.replicate n x := by
    apply List.ext_getElem?
    intro j
    rw [hget j, List.getElem?_replicate]
    by_cases h : j < n
    · have h2 : 0 ≤ j ∧ j < 0 + n := by omega
      rw [if_pos h2, if_pos h]
    · have h2 : ¬ (0 ≤ j ∧ j < 0 + n) := by omega
      rw [if_neg h2, if_neg h]
      exact List.getElem?_eq_none (by simp [ArrayPtr.alloc_length]; omega)
  simp [filled, hr, hrep]

/-! ### The counters and the buffer after a call that returns -/

theorem ArrayPtr.write_some (buf r : List α) (i : Nat) (x : α)
    (h : ArrayPtr.write buf i x = some r) : i < buf.length ∧ r.length = buf.length := by
  unfold ArrayPtr.write at h
  by_cases hi : i < buf.length
  · rw [if_pos hi] at h
    cases h
    exact ⟨hi, by simp⟩
  · rw [if_neg hi] at h
    cases h

theorem std_copy_backward_some (n : Nat) : ∀ (buf r : List α) (last d_last : Nat),
    std_copy_backward buf last d_last n = some r →
    r.length = buf.length ∧ (0 < n → d_last - 1 < buf.length) := by
  induction n with
  | zero =>
    intro buf r last d_last h
    cases h
    exact ⟨rfl, fun h0 => absurd h0 (Nat.lt_irrefl 0)⟩
  | succ n ih =>
    intro buf r last d_last h
    unfold std_copy_backward at h
    by_cases hz : last = 0 ∨ d_last = 0
    · rw [if_pos hz] at h
      cases h
    · rw [if_neg hz] at h
      simp only [Option.bind_eq_some] at h
      obtain ⟨x, _, b, hb, hrec⟩ := h
      obtain ⟨hlt, hbl⟩ := ArrayPtr.write_some _ _ _ _ hb
      obtain ⟨hrl, _⟩ := ih b r _ _ hrec
      exact ⟨by omega, fun _ => hlt⟩

theorem Reserve_counters [Inhabited α] (junk : Nat → α) (v w : SimpleVector α) (nc : Nat)
    (h : Reserve junk v nc = some w) :
    w.size_ = v.size_ ∧ w.capacity_ = max nc v.capacity_ := by
  unfold Reserve at h
  by_cases hc : nc > v.capacity_
  · rw [if_pos hc] at h
    simp only [Option.bind_eq_some, Option.map_eq_some'] at h
    obtain ⟨_, _, buf, _, rfl⟩ := h
    refine ⟨rfl, ?_⟩
    show nc = max nc v.capacity_
    rw [max_eq_left (by omega)]
  · rw [if_neg hc] at h
    cases h
    refine ⟨rfl, ?_⟩
    rw [max_eq_right (by omega)]

theorem Resize_counters [Inhabited α] (junk : Nat → α) (v w : SimpleVector α) (n : Nat)
    (h : Resize junk v n = some w) :
    w.size_ = n ∧ w.capacity_ =
      if n < v.size_ ∨ (n > v.size_ ∧ n < v.capacity_) then v.capacity_
      else max n (size_t (v.capacity_ * 2)) := by
  unfold Resize at h
  by_cases h1 : n < v.size_
  · rw [if_pos h1] at h
    cases h
    exact ⟨rfl, by rw [if_pos (Or.inl h1)]⟩
  · rw [if_neg h1] at h
    by_cases h2 : n > v.size_ ∧ n < v.capacity_
    · rw [if_pos h2] at h
      simp only [Option.map_eq_some'] at h
      obtain ⟨buf, _, rfl⟩ := h
      exact ⟨rfl, by rw [if_pos (Or.inr h2)]⟩
    · rw [if_neg h2] at h
      simp only [Option.map_eq_some'] at h
      obtain ⟨u, _, rfl⟩ := h
      exact ⟨rfl, by rw [if_neg (by tauto)]⟩

/-- When the last branch of `Resize` does not reallocate, the buffer is the one
the vector had. -/
theorem Resize_keeps_buffer [Inhabited α] (junk : Nat → α) (v w : SimpleVector α) (n : Nat)
    (h : Resize junk v n = some w) (h1 : ¬ n < v.size_)
    (h2 : ¬ (n > v.size_ ∧ n < v.capacity_))
    (h3 : ¬ max n (size_t (v.capacity_ * 2)) > v.capacity_) :
    w.items_ = v.items_ := by
  unfold Resize at h
  rw [if_neg h1, if_neg h2] at h
  simp only [Reserve, if_neg h3, Option.map_some', Option.some.injEq] at h
  rw [← h]

theorem Resize_size_le [Inhabited α] (junk : Nat → α) (v w : SimpleVector α) (n : Nat)
    (h : Resize junk v n = some w) (hsc : v.size_ ≤ v.capacity_) :
    w.size_ ≤ w.capacity_ := by
  obtain ⟨hs, hc⟩ := Resize_counters junk v w n h
  rw [hs, hc]
  by_cases h1 : n < v.size_ ∨ (n > v.size_ ∧ n < v.capacity_)
  · rw [if_pos h1]
    omega
  · rw [if_neg h1]
    exact le_max_left _ _

theorem PushBack_counters [Inhabited α] (junk : Nat → α) (v w : SimpleVector α) (x : Ref α)
    (h : PushBack junk v x = some w) :
    (v.size_ < v.capacity_ → w.size_ = v.size_ + 1 ∧ w.capacity_ = v.capacity_) ∧
      (¬ v.size_ < v.capacity_ → w.size_ = size_t (v.size_ + 1) ∧
        w.capacity_ = if size_t (v.size_ + 1) < v.size_ then v.capacity_
          else max (size_t (v.size_ + 1)) (size_t (v.capacity_ * 2))) := by
  unfold PushBack at h
  by_cases h1 : v.size_ < v.capacity_
  · rw [if_pos h1] at h
    simp only [Option.bind_eq_some, Option.map_eq_some'] at h
    obtain ⟨_, _, buf, _, rfl⟩ := h
    exact ⟨fun _ => ⟨rfl, rfl⟩, fun h2 => absurd h1 h2⟩
  · rw [if_neg h1] at h
    simp only [Option.bind_eq_some, Option.map_eq_some'] at h
    obtain ⟨u, hu, _, _, buf, _, rfl⟩ := h
    obtain ⟨hs, hc⟩ := Resize_counters junk v u _ hu
    refine ⟨fun h2 => absurd h2 h1, fun _ => ⟨hs, ?_⟩⟩
    show u.capacity_ = _
    rw [hc]
    by_cases h3 : size_t (v.size_ + 1) < v.size_
    · rw [if_pos (Or.inl h3), if_pos h3]
    · rw [if_neg (by omega), if_neg h3]

theorem PushBack_size_le [Inhabited α] (junk : Nat → α) (v w : SimpleVector α) (x : Ref α)
    (h : PushBack junk v x = some w) (hsc : v.size_ ≤ v.capacity_) :
    w.size_ ≤ w.capacity_ := by
  obtain ⟨hA, hB⟩ := PushBack_counters junk v w x h
  by_cases h1 : v.size_ < v.capacity_
  · obtain ⟨hs, hc⟩ := hA h1
    omega
  · obtain ⟨hs, hc⟩ := hB h1
    rw [hs, hc]
    by_cases h3 : size_t (v.size_ + 1) < v.size_
    · rw [if_pos h3]
      omega
    · rw [if_neg h3]
      exact le_max_left _ _

/-- The shape of a run of `Insert` on a non-empty vector that returns. -/
theorem Insert_some [Inhabited α] (junk : Nat → α) (v w : SimpleVector α) (pos : Ptr)
    (p : Nat) (x : Ref α) (h : Insert junk v pos x = some (w, p)) (hne : v.size_ ≠ 0) :
    ∃ u, (if v.size_ = v.capacity_ then Resize junk v v.size_ else some v) = some u ∧
      w.size_ = size_t (u.size_ + 1) ∧ w.capacity_ = u.capacity_ ∧
      w.items_.length = u.items_.length ∧ u.size_ < u.items_.length := by
  unfold Insert at h
  by_cases hp : Ptr.le v.cbegin pos = true ∧ Ptr.le pos v.cend = true
  · rw [if_pos hp] at h
    simp only [IsEmpty, beq_iff_eq, hne, if_false, Option.bind_eq_some,
      Option.map_eq_some', Prod.mk.injEq] at h
    obtain ⟨u, hu, buf, hcb, xv, _, buf2, hw, rfl, _⟩ := h
    obtain ⟨hbl, hfirst⟩ := std_copy_backward_some _ _ _ _ _ hcb
    obtain ⟨hlt, hbl2⟩ := ArrayPtr.write_some _ _ _ _ hw
    refine ⟨u, hu, rfl, rfl, by show buf2.length = _; omega, ?_⟩
    by_cases hcnt : 0 < u.size_ - (pos.offset - v.cbegin.offset)
    · have := hfirst hcnt
      omega
    · omega
  · rw [if_neg hp] at h
    cases h

/-- A run of `Insert` on an empty vector that returns is a run of `PushBack`. -/
theorem Insert_of_empty [Inhabited α] (junk : Nat → α) (v w : SimpleVector α) (pos : Ptr)
    (p : Nat) (x : Ref α) (h : Insert junk v pos x = some (w, p)) (he : v.size_ = 0) :
    PushBack junk v x = some w := by
  unfold Insert at h
  by_cases hp : Ptr.le v.cbegin pos = true ∧ Ptr.le pos v.cend = true
  · rw [if_pos hp] at h
    simp only [IsEmpty, he, beq_self_eq_true, if_true, Option.map_eq_some',
      Prod.mk.injEq] at h
    obtain ⟨u, hu, rfl, _⟩ := h
    exact hu
  · rw [if_neg hp] at h
    cases h

theorem Insert_size_le [Inhabited α] (junk : Nat → α) (v w : SimpleVector α) (pos : Ptr)
    (p : Nat) (x : Ref α) (h : Insert junk v pos x = some (w, p))
    (hsc : v.size_ ≤ v.capacity_) (hlen : w.items_.length < 2 ^ 63) :
    w.size_ ≤ w.capacity_ := by
  by_cases he : v.size_ = 0
  · exact PushBack_size_le junk v w x (Insert_of_empty junk v w pos p x h he) hsc
  · obtain ⟨u, hu, hs, hc, hl, hslot⟩ := Insert_some junk v w pos p x h he
    have hsz : size_t (u.size_ + 1) = u.size_ + 1 := size_t_of_lt _ (by omega)
    rw [hs, hc, hsz]
    by_cases hf : v.size_ = v.capacity_
    · rw [if_pos hf] at hu
      obtain ⟨hus, huc⟩ := Resize_counters junk v u _ hu
      rw [if_neg (by omega)] at huc
      have e2 : size_t (v.capacity_ * 2) = v.capacity_ * 2 := size_t_of_lt _ (by omega)
      rw [e2] at huc
      have hm : v.capacity_ * 2 ≤ u.capacity_ := by
        rw [huc]
        exact le_max_right _ _
      omega
    · rw [if_neg hf] at hu
      cases hu
      omega

theorem Erase_counters (v w : SimpleVector α) (pos p : Nat)
    (h : Erase v pos = some (w, p)) :
    w.size_ = v.size_ - 1 ∧ w.capacity_ = v.capacity_ := by
  unfold Erase at h
  by_cases hp : pos < v.size_
  · rw [if_pos hp] at h
    simp only [Option.map_eq_some', Prod.mk.injEq] at h
    obtain ⟨buf, _, rfl, _⟩ := h
    exact ⟨rfl, rfl⟩
  · rw [if_neg hp] at h
    cases h

theorem copy_counters (junk : Nat → α) (v w : SimpleVector α) (h : copy junk v = some w) :
    w.size_ = v.size_ ∧ w.capacity_ = v.capacity_ := by
  unfold copy at h
  simp only [Option.map_eq_some'] at h
  obtain ⟨buf, _, rfl⟩ := h
  exact ⟨rfl, rfl⟩

/-- Every vector a program can hold has `size_ <= capacity_`. -/
theorem Reachable_size_le [Inhabited α] (v : SimpleVector α) (h : Reachable v) :
    v.size_ ≤ v.capacity_ := by
  induction h with
  | default => exact le_refl _
  | sized junk n w hw =>
    rw [sized_eq] at hw
    cases hw
    exact le_refl _
  | filled junk n x w hw =>
    rw [filled_eq] at hw
    cases hw
    exact le_refl _
  | ofList junk init w hw =>
    unfold SimpleVector.ofList at hw
    simp only [Option.map_eq_some'] at hw
    obtain ⟨buf, _, rfl⟩ := hw
    exact le_refl _
  | ofReserve n => exact Nat.zero_le _
  | copy junk v w _ hw ih =>
    obtain ⟨hs, hc⟩ := copy_counters junk v w hw
    omega
  | moveCtor_new v _ ih => exact ih
  | moveCtor_source v _ _ => exact le_refl _
  | PushBack junk v x w _ hw ih => exact PushBack_size_le junk v w x hw ih
  | PopBack v w _ hw ih =>
    unfold SimpleVector.PopBack at hw
    by_cases he : v.IsEmpty
    · rw [if_pos he] at hw
      cases hw
    · rw [if_neg he] at hw
      cases hw
      show v.size_ - 1 ≤ v.capacity_
      omega
  | Insert junk v pos x w p _ hw hl ih => exact Insert_size_le junk v w pos p x hw ih hl
  | Erase v pos w p _ hw ih =>
    obtain ⟨hs, hc⟩ := Erase_counters v w pos p hw
    omega
  | Resize junk v n w _ hw ih => exact Resize_size_le junk v w n hw ih
  | Reserve junk v n w _ hw ih =>
    obtain ⟨hs, hc⟩ := Reserve_counters junk v w n hw
    rw [hs, hc]
    exact le_trans ih (le_max_right _ _)
  | Clear v _ _ => exact Nat.zero_le _
  | swap_this v o _ _ _ iho => exact iho
  | swap_other v o _ _ ihv _ => exact ihv
  | assign junk v rhs w _ _ hw _ ihr =>
    unfold SimpleVector.assign at hw
    simp only [Option.map_eq_some'] at hw
    obtain ⟨tmp, htmp, rfl⟩ := hw
    obtain ⟨hs, hc⟩ := copy_counters junk rhs tmp htmp
    show tmp.size_ ≤ tmp.capacity_
    omega
  | moveAssign_this v o _ _ _ iho => exact iho
  | moveAssign_source v o _ _ _ _ => exact le_refl _

/-- What a run of `PushBack` calls with objects outside the buffer does on a
vector that satisfies the class invariant and whose capacity is 0 or a power of
two below twice its size, as long as the final size stays within `2 ^ 62`. -/
theorem PushBackAll_valid [Inhabited α] (junk : Nat → α) : ∀ (xs : List α) (v : SimpleVector α),
    v.Valid → (v.capacity_ = 0 ∨ ∃ m, v.capacity_ = 2 ^ m ∧ 2 ^ m < 2 * v.size_) →
    v.size_ + xs.length ≤ 2 ^ 62 →
    ∃ w, PushBackAll junk v (xs.map Ref.outside) = some w ∧ w.Valid ∧
      w.size_ = v.size_ + xs.length ∧ w.toList = v.toList ++ xs ∧
      (w.capacity_ = 0 ∨ ∃ m, w.capacity_ = 2 ^ m ∧ 2 ^ m < 2 * w.size_) := by
  intro xs
  induction xs with
  | nil =>
    intro v hv hp _
    exact ⟨v, rfl, hv, by simp, by simp, hp⟩
  | cons x xs ih =>
    intro v hv hp hbound
    rw [List.length_cons] at hbound
    have hcap : v.capacity_ * 2 < 2 ^ 64 := by
      rcases hp with h0 | ⟨m, hm, hlt⟩
      · rw [h0]
        norm_num
      · rw [hm]
        omega
    obtain ⟨u, hu, husz, hul, huv, hucap⟩ := PushBack_valid junk v x hv hcap
    have hup : u.capacity_ = 0 ∨ ∃ m, u.capacity_ = 2 ^ m ∧ 2 ^ m < 2 * u.size_ := by
      right
      rcases hp with h0 | ⟨m, hm, hlt⟩
      · have hs0 : v.size_ = 0 := by have := hv.1; omega
        refine ⟨0, ?_, by omega⟩
        rw [hucap, if_neg (by omega), h0, hs0]
        rfl
      · by_cases hlt2 : v.size_ < v.capacity_
        · refine ⟨m, ?_, by omega⟩
          rw [hucap, if_pos hlt2, hm]
        · have heq : v.size_ = v.capacity_ := by have := hv.1; omega
          have hpos : 0 < 2 ^ m := Nat.pow_pos (by norm_num)
          refine ⟨m + 1, ?_, ?_⟩
          · rw [hucap, if_neg hlt2, Nat.pow_succ, max_eq_right (by omega), hm]
          · rw [Nat.pow_succ]
            omega
    obtain ⟨w, hw, hwv, hwsz, hwl, hwp⟩ := ih u huv hup (by omega)
    refine ⟨w, ?_, hwv, ?_, ?_, hwp⟩
    · simp only [List.map_cons, PushBackAll, hu, Option.some_bind, hw]
    · rw [hwsz, husz, List.length_cons]
      omega
    · rw [hwl, hul, List.append_assoc]
      rfl

end SimpleVector


/-! ## The comparison algorithms, slot by slot -/

theorem getElem?_of_read (buf : List α) (i : Nat) (h : i < buf.length) :
    buf[i]? = some (buf.get ⟨i, h⟩) := by
  simp [List.getElem?_eq_getElem h]

theorem std_equal_loop_spec [DecidableEq α] (a b : List α) (n : Nat) : ∀ (f1 f2 : Nat),
    f1 + n ≤ a.length → f2 + n ≤ b.length →
    ∃ r, std_equal_loop a f1 b f2 n = some r ∧
      (r = true ↔ ∀ k, k < n → a[f1 + k]? = b[f2 + k]?) := by
  induction n with
  | zero =>
    intro f1 f2 _ _
    exact ⟨true, rfl, by simp⟩
  | succ n ih =>
    intro f1 f2 h1 h2
    have hf1 : f1 < a.length := by omega
    have hf2 : f2 < b.length := by omega
    have hx := getElem?_of_read a f1 hf1
    have hy := getElem?_of_read b f2 hf2
    by_cases hxy : a.get ⟨f1, hf1⟩ = b.get ⟨f2, hf2⟩
    · obtain ⟨r, hr, hiff⟩ := ih (f1 + 1) (f2 + 1) (by omega) (by omega)
      refine ⟨r, ?_, ?_⟩
      · simp only [std_equal_loop, ArrayPtr.read, hx, hy, Option.some_bind, if_pos hxy, hr]
      · rw [hiff]
        constructor
        · intro h k hk
          cases k with
          | zero => rw [Nat.add_zero, Nat.add_zero, hx, hy, hxy]
          | succ k =>
            have := h k (by omega)
            rwa [Nat.add_assoc, Nat.add_assoc, Nat.add_comm 1 k] at this
        · intro h k hk
          have := h (k + 1) (by omega)
          rwa [Nat.add_assoc, Nat.add_assoc, Nat.add_comm 1 k]
    · refine ⟨false, ?_, ?_⟩
      · simp only [std_equal_loop, ArrayPtr.read, hx, hy, Option.some_bind, if_neg hxy]
      · constructor
        · intro h
          cases h
        · intro h
          have := h 0 (by omega)
          rw [Nat.add_zero, Nat.add_zero, hx, hy] at this
          exact absurd (Option.some.inj this) hxy

theorem std_lexicographical_compare_spec [LinearOrder α] (a b : List α) (n1 : Nat) :
    ∀ (n2 f1 f2 : Nat), f1 + n1 ≤ a.length → f2 + n2 ≤ b.length →
    ∃ r, std_lexicographical_compare a f1 b f2 n1 n2 = some r ∧
      (r = true ↔
        (∃ i, i < n1 ∧ i < n2 ∧ (∀ j, j < i → a[f1 + j]? = b[f2 + j]?) ∧
          ∃ x y, a[f1 + i]? = some x ∧ b[f2 + i]? = some y ∧ x < y) ∨
        (n1 < n2 ∧ ∀ j, j < n1 → a[f1 + j]? = b[f2 + j]?)) := by
  induction n1 with
  | zero =>
    intro n2 f1 f2 _ _
    refine ⟨decide (n2 ≠ 0), by cases n2 <;> rfl, ?_⟩
    constructor
    · intro h
      right
      have h2 : n2 ≠ 0 := of_decide_eq_true h
      exact ⟨by omega, fun j hj => absurd hj (Nat.not_lt_zero j)⟩
    · intro h
      rcases h with ⟨i, hi, _⟩ | ⟨h, _⟩
      · exact absurd hi (Nat.not_lt_zero i)
      · exact decide_eq_true (by omega)
  | succ n1 ih =>
    intro n2 f1 f2 h1 h2
    cases n2 with
    | zero =>
      refine ⟨false, rfl, ?_⟩
      constructor
      · intro h
        cases h
      · intro h
        rcases h with ⟨i, _, hi, _⟩ | ⟨h, _⟩
        · exact absurd hi (Nat.not_lt_zero i)
        · exact absurd h (Nat.not_lt_zero _)
    | succ n2 =>
      have hf1 : f1 < a.length := by omega
      have hf2 : f2 < b.length := by omega
      have hx := getElem?_of_read a f1 hf1
      have hy := getElem?_of_read b f2 hf2
      by_cases hlt : a.get ⟨f1, hf1⟩ < b.get ⟨f2, hf2⟩
      · refine ⟨true, ?_, ?_⟩
        · simp only [std_lexicographical_compare, ArrayPtr.read, hx, hy, Option.some_bind,
            if_pos hlt]
        · refine ⟨fun _ => Or.inl ⟨0, by omega, by omega, ?_, _, _, hx, hy, hlt⟩, fun _ => rfl⟩
          intro j hj
          exact absurd hj (Nat.not_lt_zero j)
      · by_cases hgt : b.get ⟨f2, hf2⟩ < a.get ⟨f1, hf1⟩
        · refine ⟨false, ?_, ?_⟩
          · simp only [std_lexicographical_compare, ArrayPtr.read, hx, hy, Option.some_bind,
              if_neg hlt, if_pos hgt]
          · constructor
            · intro h
              cases h
            · intro h
              have hne : a[f1 + 0]? ≠ b[f2 + 0]? := by
                rw [Nat.add_zero, Nat.add_zero, hx, hy]
                intro he
                rw [Option.some.inj he] at hgt
                exact lt_irrefl _ hgt
              rcases h with ⟨i, _, _, hpre, x, y, hax, hby, hxy⟩ | ⟨_, hpre⟩
              · cases i with
                | zero =>
                  rw [Nat.add_zero, hx] at hax
                  rw [Nat.add_zero, hy] at hby
                  rw [← Option.some.inj hax, ← Option.some.inj hby] at hxy
                  exact absurd hxy hlt
                | succ i => exact absurd (hpre 0 (by omega)) hne
              · exact absurd (hpre 0 (by omega)) hne
        · have heq : a.get ⟨f1, hf1⟩ = b.get ⟨f2, hf2⟩ :=
            le_antisymm (not_lt.mp hgt) (not_lt.mp hlt)
          have h0 : a[f1 + 0]? = b[f2 + 0]? := by
            rw [Nat.add_zero, Nat.add_zero, hx, hy, heq]
          have e1 : ∀ j, f1 + 1 + j = f1 + (j + 1) := fun j => by omega
          have e2 : ∀ j, f2 + 1 + j = f2 + (j + 1) := fun j => by omega
          obtain ⟨r, hr, hiff⟩ := ih n2 (f1 + 1) (f2 + 1) (by omega) (by omega)
          refine ⟨r, ?_, ?_⟩
          · simp only [std_lexicographical_compare, ArrayPtr.read, hx, hy, Option.some_bind,
              if_neg hlt, if_neg hgt, hr]
          · rw [hiff]
            constructor
            · intro h
              rcases h with ⟨i, hi1, hi2, hpre, x, y, hax, hby, hxy⟩ | ⟨hn, hpre⟩
              · refine Or.inl ⟨i + 1, by omega, by omega, ?_, x, y, ?_, ?_, hxy⟩
                · intro j hj
                  cases j with
                  | zero => exact h0
                  | succ j =>
                    have := hpre j (by omega)
                    rwa [e1, e2] at this
                · rwa [e1] at hax
                · rwa [e2] at hby
              · refine Or.inr ⟨by omega, ?_⟩
                intro j hj
                cases j with
                | zero => exact h0
                | succ j =>
                  have := hpre j (by omega)
                  rwa [e1, e2] at this
            · intro h
              rcases h with ⟨i, hi1, hi2, hpre, x, y, hax, hby, hxy⟩ | ⟨hn, hpre⟩
              · cases i with
                | zero =>
                  rw [Nat.add_zero, hx] at hax
                  rw [Nat.add_zero, hy] at hby
                  rw [← Option.some.inj hax, ← Option.some.inj hby] at hxy
                  exact absurd hxy hlt
                | succ i =>
                  refine Or.inl ⟨i, by omega, by omega, ?_, x, y, ?_, ?_, hxy⟩
                  · intro j hj
                    have := hpre (j + 1) (by omega)
                    rwa [e1, e2]
                  · rwa [e1]
                  · rwa [e2]
              · refine Or.inr ⟨by omega, ?_⟩
                intro j hj
                have := hpre (j + 1) (by omega)
                rwa [e1, e2]

theorem compare_trichotomy [LinearOrder α] (a b : List α) (n1 : Nat) :
    ∀ (n2 f1 f2 : Nat), f1 + n1 ≤ a.length → f2 + n2 ≤ b.length →
    ∃ r1 r2, std_lexicographical_compare a f1 b f2 n1 n2 = some r1 ∧
      std_lexicographical_compare b f2 a f1 n2 n1 = some r2 ∧
      (r1 = true → r2 = false) ∧ (n1 ≠ n2 → r1 = true ∨ r2 = true) ∧
      (n1 = n2 → ∃ re, std_equal_loop a f1 b f2 n1 = some re ∧
        (re = true ↔ r1 = false ∧ r2 = false)) := by
  induction n1 with
  | zero =>
    intro n2 f1 f2 _ _
    cases n2 with
    | zero =>
      exact ⟨false, false, rfl, rfl, fun _ => rfl, fun h => absurd rfl h,
        fun _ => ⟨true, rfl, by simp⟩⟩
    | succ n2 =>
      exact ⟨true, false, rfl, rfl, fun _ => rfl, fun _ => Or.inl rfl,
        fun h => absurd h (by omega)⟩
  | succ n1 ih =>
    intro n2 f1 f2 h1 h2
    cases n2 with
    | zero =>
      exact ⟨false, true, rfl, rfl, (fun h => by cases h), fun _ => Or.inr rfl,
        fun h => absurd h (by omega)⟩
    | succ n2 =>
      have hf1 : f1 < a.length := by omega
      have hf2 : f2 < b.length := by omega
      have hx := getElem?_of_read a f1 hf1
      have hy := getElem?_of_read b f2 hf2
      by_cases hlt : a.get ⟨f1, hf1⟩ < b.get ⟨f2, hf2⟩
      · have hngt : ¬ b.get ⟨f2, hf2⟩ < a.get ⟨f1, hf1⟩ := not_lt.mpr (le_of_lt hlt)
        refine ⟨true, false, ?_, ?_, fun _ => rfl, fun _ => Or.inl rfl, fun _ => ⟨false, ?_, ?_⟩⟩
        · simp only [std_lexicographical_compare, ArrayPtr.read, hx, hy, Option.some_bind,
            if_pos hlt]
        · simp only [std_lexicographical_compare, ArrayPtr.read, hx, hy, Option.some_bind,
            if_neg hngt, if_pos hlt]
        · simp only [std_equal_loop, ArrayPtr.read, hx, hy, Option.some_bind,
            if_neg (ne_of_lt hlt)]
        · simp
      · by_cases hgt : b.get ⟨f2, hf2⟩ < a.get ⟨f1, hf1⟩
        · refine ⟨false, true, ?_, ?_, (fun h => by cases h), fun _ => Or.inr rfl,
            fun _ => ⟨false, ?_, ?_⟩⟩
          · simp only [std_lexicographical_compare, ArrayPtr.read, hx, hy, Option.some_bind,
              if_neg hlt, if_pos hgt]
          · simp only [std_lexicographical_compare, ArrayPtr.read, hx, hy, Option.some_bind,
              if_pos hgt]
          · simp only [std_equal_loop, ArrayPtr.read, hx, hy, Option.some_bind,
              if_neg (ne_of_gt hgt)]
          · simp
        · have heq : a.get ⟨f1, hf1⟩ = b.get ⟨f2, hf2⟩ :=
            le_antisymm (not_lt.mp hgt) (not_lt.mp hlt)
          obtain ⟨r1, r2, hr1, hr2, hex, hne, hre⟩ :=
            ih n2 (f1 + 1) (f2 + 1) (by omega) (by omega)
          refine ⟨r1, r2, ?_, ?_, hex, fun h => hne (by omega), fun h => ?_⟩
          · simp only [std_lexicographical_compare, ArrayPtr.read, hx, hy, Option.some_bind,
              if_neg hlt, if_neg hgt, hr1]
          · simp only [std_lexicographical_compare, ArrayPtr.read, hx, hy, Option.some_bind,
              if_neg hlt, if_neg hgt, hr2]
          · obtain ⟨re, hre1, hre2⟩ := hre (by omega)
            refine ⟨re, ?_, hre2⟩
            simp only [std_equal_loop, ArrayPtr.read, hx, hy, Option.some_bind, if_pos heq, hre1]

theorem SimpleVector.index_of_lt (v : SimpleVector α) (j : Nat) (h : j < v.size_) :
    v.index j = v.items_[0 + j]? := by
  simp only [SimpleVector.index, ArrayPtr.read, if_pos h, Nat.zero_add]

/-! ## The claims -/

open SimpleVector

/-- C1, at an input where the code departs from the claim: erasing at offset 1 of
the vector built from `{1, 2, 3, 4}` leaves the elements `1, 4, 4` (the last
element is written over both remaining slots), not `1, 3, 4`. -/
theorem Erase_middle_overwrites (junk : Nat → Nat) :
    ((ofList junk [1, 2, 3, 4]).bind fun v => v.Erase 1)
        = some (⟨3, 4, [1, 4, 4, 4]⟩, 1) ∧
      (SimpleVector.mk 3 4 [1, 4, 4, 4]).toList = [1, 4, 4] ∧
      [1, 4, 4] ≠ [1, 3, 4] := by
  refine ⟨rfl, rfl, by decide⟩

/-- C2, at inputs where the code departs from the claim. On the vector of size 3
and capacity 4 with slots `1, 2, 3, 4` (the vector `{1, 2, 3, 4}` after
`PopBack`), `Insert` at `begin() + 1` of the element `v[2]`, which is `3`,
leaves `1, 2, 2, 3`: the argument is a reference and is read after the elements
were shifted, when slot 2 holds `2`; the claim gives `1, 3, 2, 3`. On the full
vector `{1, 2, 3}` the same call reads the reference after `Resize` has released
the buffer and has no result. On the emptied vector of size 0 and capacity 2
(`{1, 2}` after `Clear`), `Insert` at `begin()` fails the `assert`, because
`cbegin()` and `cend()` are null pointers and `begin()` is not. -/
theorem Insert_reads_value_late (junk : Nat → Nat) :
    (SimpleVector.mk 3 4 [1, 2, 3, 4]).index 2 = some 3 ∧
      (SimpleVector.mk 3 4 [1, 2, 3, 4]).begin.add 1 = Ptr.slot 1 ∧
      Insert junk ⟨3, 4, [1, 2, 3, 4]⟩ (Ptr.slot 1) (Ref.slot 2)
        = some (⟨4, 4, [1, 2, 2, 3]⟩, 1) ∧
      (SimpleVector.mk 4 4 [1, 2, 2, 3]).toList = [1, 2, 2, 3] ∧
      [1, 2, 2, 3] ≠ [1, 3, 2, 3] ∧
      Insert junk ⟨3, 3, [1, 2, 3]⟩ (Ptr.slot 1) (Ref.slot 1) = none ∧
      (SimpleVector.mk 0 2 [1, 2]).begin = Ptr.slot 0 ∧
      (SimpleVector.mk 0 2 [1, 2]).cbegin = Ptr.null ∧
      (SimpleVector.mk 0 2 [1, 2]).cend = Ptr.null ∧
      Insert junk ⟨0, 2, [1, 2]⟩ (Ptr.slot 0) (Ref.outside 9) = none := by
  refine ⟨rfl, rfl, rfl, rfl, by decide, rfl, rfl, rfl, rfl, rfl⟩

/-- C3, at an input where the code departs from the claim: on the vector built
from `{1, 2, 3}`, `Insert` of a copy of the element `2` at offset 1 followed by
`Erase` at the returned offset 1 leaves the elements `1, 3, 3`, not `1, 2, 3`. -/
theorem Insert_then_Erase_overwrites (junk : Nat → Nat) :
    ofList junk [1, 2, 3] = some ⟨3, 3, [1, 2, 3]⟩ ∧
      (SimpleVector.mk 3 3 [1, 2, 3]).index 1 = some 2 ∧
      Insert junk ⟨3, 3, [1, 2, 3]⟩ (Ptr.slot 1) (Ref.outside 2)
        = some (⟨4, 6, [1, 2, 2, 3, 0, 0]⟩, 1) ∧
      Erase ⟨4, 6, [1, 2, 2, 3, 0, 0]⟩ 1 = some (⟨3, 6, [1, 3, 3, 3, 0, 0]⟩, 1) ∧
      (SimpleVector.mk 3 6 [1, 3, 3, 3, 0, 0]).toList = [1, 3, 3] ∧
      [1, 3, 3] ≠ [1, 2, 3] := by
  refine ⟨rfl, rfl, rfl, rfl, rfl, by decide⟩

/-- C4, at inputs where the code departs from the claim: `PushBack` on the vector
built from `Reserve(2)` writes slot 0 of a buffer that was never allocated, and
`PushBack` on the copy of a vector of size 1 and capacity 2 (the vector `{1, 2}`
after `PopBack`) writes slot 1 of a buffer of one slot; neither run has a
result. -/
theorem PushBack_without_storage (junk : Nat → Nat) (item : Ref Nat) :
    PushBack junk (ofReserve 2) item = none ∧
      ((ofList junk [1, 2]).bind fun s => s.PopBack.bind fun s1 => copy junk s1)
        = some ⟨1, 2, [1]⟩ ∧
      PushBack junk ⟨1, 2, [1]⟩ item = none := by
  refine ⟨?_, rfl, ?_⟩
  · cases item <;> simp [PushBack, ofReserve, Ref.read, ArrayPtr.read, ArrayPtr.write]
  · cases item <;> simp [PushBack, Ref.read, ArrayPtr.read, ArrayPtr.write]

/-- C5, where the code departs from the claim: the vector built from `Reserve(n)`
has size 0 and capacity `n` but no storage at all, so for every `n >= 1` the
first `PushBack` has no result (in particular for `n = 10`). -/
theorem ofReserve_has_no_storage (junk : Nat → Nat) (n : Nat) (item : Ref Nat) :
    (ofReserve n : SimpleVector Nat).GetSize = 0 ∧
      (ofReserve n : SimpleVector Nat).GetCapacity = n ∧
      (ofReserve n : SimpleVector Nat).items_ = [] ∧
      PushBack junk (ofReserve (n + 1)) item = none := by
  refine ⟨rfl, rfl, rfl, ?_⟩
  cases item <;> simp [PushBack, ofReserve, Ref.read, ArrayPtr.read, ArrayPtr.write]

/-- C6, at an input where the code departs from the claim: the copy of a vector
of size 1 and capacity 2 (the vector `{1, 2}` after `PopBack`) reports capacity
2, the capacity of the source, while its buffer has one slot, the size of the
source. -/
theorem copy_keeps_capacity_field (junk : Nat → Nat) :
    ((ofList junk [1, 2]).bind fun s => s.PopBack) = some ⟨1, 2, [1, 2]⟩ ∧
      copy junk ⟨1, 2, [1, 2]⟩ = some ⟨1, 2, [1]⟩ ∧
      (SimpleVector.mk 1 2 [1]).GetCapacity = 2 ∧
      (SimpleVector.mk 1 2 [1]).items_.length = 1 := by
  refine ⟨rfl, rfl, rfl, rfl⟩

/-- Counterexample to C7 as stated: on the vector built from `{1, 2, 3}`,
`Resize(1)` followed by `Resize(3)` gives the elements `1, 0, 0`. -/
theorem Resize_shrink_grow_resets :
    ((ofList (fun _ => 7) [1, 2, 3]).bind fun v =>
        (Resize (fun _ => 7) v 1).bind fun u => Resize (fun _ => 7) u 3)
        = some ⟨3, 6, [1, 0, 0, 0, 0, 0]⟩ ∧
      (SimpleVector.mk 3 6 [1, 0, 0, 0, 0, 0]).toList = [1, 0, 0] ∧
      [1, 0, 0] ≠ [1, 2, 3] := by
  refine ⟨rfl, rfl, by decide⟩

/-- C7, amended: for a vector of size `n` that satisfies the class invariant and
every `k <= n`, `Resize(k)` followed by `Resize(n)` gives size `n` again and the
original elements at all offsets below `k` (for `k = n` these are all the
elements). -/
theorem Resize_shrink_grow_front [Inhabited α] (junk : Nat → α) (v : SimpleVector α)
    (k : Nat) (hv : v.Valid) (hk : k ≤ v.size_) :
    ∃ u w, Resize junk v k = some u ∧ Resize junk u v.size_ = some w ∧
      w.GetSize = v.GetSize ∧ ∀ i, i < k → w.index i = v.index i := by
  obtain ⟨u, hu, husz, huv, hukeep⟩ := Resize_valid junk v k hv
  obtain ⟨w, hw, hwsz, _, hwkeep⟩ := Resize_valid junk u v.size_ huv
  refine ⟨u, w, hu, hw, hwsz, fun i hi => ?_⟩
  have h1 := hukeep i (by omega) hi
  have h2 := hwkeep i (by omega) (by omega)
  simp only [index, ArrayPtr.read, hwsz, if_pos (show i < v.size_ by omega), h2, h1]

/-- Witness of C7, amended: the vector `{1, 2, 3}` and `k = 1`. -/
theorem Resize_shrink_grow_front_witness :
    (SimpleVector.mk 3 3 [1, 2, 3]).Valid ∧ 1 ≤ (SimpleVector.mk 3 3 [1, 2, 3]).size_ ∧
      ∃ u w, Resize (fun _ => 7) (SimpleVector.mk 3 3 [1, 2, 3]) 1 = some u ∧
        Resize (fun _ => 7) u (SimpleVector.mk 3 3 [1, 2, 3]).size_ = some w ∧
        w.GetSize = (SimpleVector.mk 3 3 [1, 2, 3]).GetSize ∧
        ∀ i, i < 1 → w.index i = (SimpleVector.mk 3 3 [1, 2, 3]).index i :=
  ⟨by decide, by decide,
    Resize_shrink_grow_front (fun _ => 7) (SimpleVector.mk 3 3 [1, 2, 3]) 1
      (by decide) (by decide)⟩

/-- C8, at an input where the code departs from the claim: on a vector of size 1
and capacity 3 whose slots hold `1, 2, 3` (the vector `{1, 2, 3}` after
`Resize(1)`), `Resize(2)` runs its loop zero times, so the element at offset 1 is
the stale `2`, not the default value `0`. -/
theorem Resize_within_capacity_keeps_stale (junk : Nat → Nat) :
    ((ofList junk [1, 2, 3]).bind fun v => Resize junk v 1) = some ⟨1, 3, [1, 2, 3]⟩ ∧
      Resize junk ⟨1, 3, [1, 2, 3]⟩ 2 = some ⟨2, 3, [1, 2, 3]⟩ ∧
      (SimpleVector.mk 2 3 [1, 2, 3]).index 1 = some 2 ∧
      (2 : Nat) ≠ default := by
  refine ⟨rfl, rfl, rfl, by decide⟩

/-- C10: on a vector with `size_ <= capacity_` whose elements lie in allocated
slots, `Reserve(new_capacity)` returns the vector as it is when
`new_capacity <= capacity_`; otherwise the capacity becomes exactly
`new_capacity`, the size is unchanged and every element at an offset below the
size is unchanged. -/
theorem Reserve_frame [Inhabited α] (junk : Nat → α) (v : SimpleVector α)
    (new_capacity : Nat) (hsc : v.size_ ≤ v.capacity_) (hbuf : v.size_ ≤ v.items_.length) :
    (new_capacity ≤ v.capacity_ → Reserve junk v new_capacity = some v) ∧
      (v.capacity_ < new_capacity →
        ∃ w, Reserve junk v new_capacity = some w ∧ w.GetCapacity = new_capacity ∧
          w.GetSize = v.GetSize ∧ (∀ i, i < v.size_ → w.index i = v.index i) ∧
          w.toList = v.toList) := by
  constructor
  · intro hle
    simp only [Reserve, if_neg (show ¬ new_capacity > v.capacity_ by omega)]
  · intro hlt
    obtain ⟨buf, hr, hlen, hget⟩ :=
      Reserve_realloc junk v new_capacity hlt (by omega) hbuf
    refine ⟨_, hr, rfl, rfl, fun i hi => ?_, ?_⟩
    · simp only [index, ArrayPtr.read, if_pos hi, hget i]
    · apply List.ext_getElem?
      intro j
      rw [getElem?_toList, getElem?_toList]
      by_cases hj : j < v.size_
      · simp only [if_pos hj, hget j]
      · simp only [if_neg hj]

/-- Witness of C10: the vector of size 2 and capacity 3 with slots `1, 2, 3`,
`Reserve(3)` and `Reserve(5)`. -/
theorem Reserve_frame_witness :
    (SimpleVector.mk 2 3 [1, 2, 3]).size_ ≤ (SimpleVector.mk 2 3 [1, 2, 3]).capacity_ ∧
      (SimpleVector.mk 2 3 [1, 2, 3]).size_ ≤ (SimpleVector.mk 2 3 [1, 2, 3]).items_.length ∧
      Reserve (fun _ => 7) (SimpleVector.mk 2 3 [1, 2, 3]) 3
        = some (SimpleVector.mk 2 3 [1, 2, 3]) ∧
      ∃ w, Reserve (fun _ => 7) (SimpleVector.mk 2 3 [1, 2, 3]) 5 = some w ∧
        w.GetCapacity = 5 ∧ w.GetSize = (SimpleVector.mk 2 3 [1, 2, 3]).GetSize ∧
        (∀ i, i < (SimpleVector.mk 2 3 [1, 2, 3]).size_ →
          w.index i = (SimpleVector.mk 2 3 [1, 2, 3]).index i) ∧
        w.toList = (SimpleVector.mk 2 3 [1, 2, 3]).toList :=
  ⟨by decide, by decide,
    (Reserve_frame (fun _ => 7) (SimpleVector.mk 2 3 [1, 2, 3]) 3
      (by decide) (by decide)).1 (by decide),
    (Reserve_frame (fun _ => 7) (SimpleVector.mk 2 3 [1, 2, 3]) 5
      (by decide) (by decide)).2 (by decide)⟩

/-- C11, at an input where the code departs from the claim: on the default
vector, `PushBack(1)` gives size 1 and capacity 1; the next call
`PushBack(v[0])` passes a reference to slot 0, `Resize(2)` moves the elements to
a new buffer and releases the old one, and the reference is read only then, so
the second push reads a freed slot and has no result, where the claim gives the
elements `1, 1`. -/
theorem PushBack_own_element_dangles (junk : Nat → Nat) :
    PushBack junk mk0 (Ref.outside 1) = some ⟨1, 1, [1]⟩ ∧
      (SimpleVector.mk 1 1 [1]).index 0 = some 1 ∧
      Resize_frees (SimpleVector.mk 1 1 [1]) 2 = true ∧
      PushBack junk ⟨1, 1, [1]⟩ (Ref.slot 0) = none ∧
      PushBackAll junk mk0 [Ref.outside 1, Ref.slot 0] = none := by
  refine ⟨rfl, rfl, rfl, rfl, rfl⟩

/-- C12: every vector built by a constructor (default, sized, value-filled,
initializer list, Reserve proxy, copy, move) and then changed by any sequence of
mutator calls that return (PushBack, PopBack, Insert, Erase, Resize, Reserve,
Clear, swap, copy and move assignment) has `size <= capacity`; the buffer that
`Insert` leaves is an array, of fewer than `2 ^ 63` slots. -/
theorem size_le_capacity [Inhabited α] (v : SimpleVector α) (h : Reachable v) :
    v.GetSize ≤ v.GetCapacity :=
  Reachable_size_le v h

/-- Witness of C12: the default vector after `PushBack(5)` and `Insert` of `9` at
offset 0, that is size 2 and capacity 2 with slots `9, 5`. -/
theorem size_le_capacity_witness :
    Reachable (SimpleVector.mk 2 2 [9, 5]) ∧
      (SimpleVector.mk 2 2 [9, 5]).GetSize ≤ (SimpleVector.mk 2 2 [9, 5]).GetCapacity :=
  have hr : Reachable (SimpleVector.mk 2 2 [9, 5]) :=
    Reachable.Insert (fun _ => 7) ⟨1, 1, [5]⟩ (Ptr.slot 0) (Ref.outside 9) _ 0
      (Reachable.PushBack (fun _ => 7) mk0 (Ref.outside 5) _ Reachable.default rfl)
      rfl (by norm_num)
  ⟨hr, size_le_capacity _ hr⟩

/-- C13, at an input where the code departs from the claim: the copy of the
vector of size 1 and capacity 2 with slots `1, 2` has size 1, the element `1`
and compares equal to its source, but it reports capacity 2 over a buffer of one
slot, so `PushBack` on the copy writes slot 1 outside that buffer and has no
result. -/
theorem copy_then_PushBack_overruns (junk : Nat → Nat) (item : Ref Nat) :
    copy junk ⟨1, 2, [1, 2]⟩ = some ⟨1, 2, [1]⟩ ∧
      op_eq (SimpleVector.mk 1 2 [1]) (SimpleVector.mk 1 2 [1, 2]) = some true ∧
      (SimpleVector.mk 1 2 [1]).items_.length < (SimpleVector.mk 1 2 [1]).capacity_ ∧
      PushBack junk ⟨1, 2, [1]⟩ item = none := by
  refine ⟨rfl, rfl, by decide, ?_⟩
  cases item <;> simp [PushBack, Ref.read, ArrayPtr.read, ArrayPtr.write]

/-- C14: on a vector whose elements lie in allocated slots, `At(index)` throws
`out_of_range` exactly when `index >= size`, and for `index < size` it returns
the element that `operator[]` gives at that index. -/
theorem At_spec (v : SimpleVector α) (i : Nat) (hbuf : v.size_ ≤ v.items_.length) :
    (At v i = some (Except.error AccessError.out_of_range) ↔ i ≥ v.GetSize) ∧
      (i < v.GetSize → ∃ x, v.index i = some x ∧ At v i = some (Except.ok x)) := by
  have hread : ∀ j, j < v.size_ → ∃ x, ArrayPtr.read v.items_ j = some x := fun j hj =>
    ⟨_, ArrayPtr.read_of_lt v.items_ j (by omega)⟩
  constructor
  · constructor
    · intro h
      by_contra hlt
      have hlt2 : i < v.size_ := Nat.lt_of_not_le hlt
      obtain ⟨x, hx⟩ := hread i hlt2
      simp [At, hlt2, hx] at h
    · intro h
      have h2 : i ≥ v.size_ := h
      simp only [At, if_pos h2]
  · intro h
    have h2 : i < v.size_ := h
    obtain ⟨x, hx⟩ := hread i h2
    refine ⟨x, ?_, ?_⟩
    · simp only [index, if_pos h2, hx]
    · simp only [At, if_neg (show ¬ i ≥ v.size_ by omega), hx, Option.map_some']

/-- Witness of C14: the vector `{1, 3}` at index 1. -/
theorem At_spec_witness :
    (SimpleVector.mk 2 2 [1, 3]).size_ ≤ (SimpleVector.mk 2 2 [1, 3]).items_.length ∧
      ((At (SimpleVector.mk 2 2 [1, 3]) 1 = some (Except.error AccessError.out_of_range) ↔
          1 ≥ (SimpleVector.mk 2 2 [1, 3]).GetSize) ∧
        (1 < (SimpleVector.mk 2 2 [1, 3]).GetSize →
          ∃ x, (SimpleVector.mk 2 2 [1, 3]).index 1 = some x ∧
            At (SimpleVector.mk 2 2 [1, 3]) 1 = some (Except.ok x))) :=
  ⟨by decide, At_spec (SimpleVector.mk 2 2 [1, 3]) 1 (by decide)⟩

/-- C15: for two vectors whose elements lie in allocated slots, `a == b` returns
`true` exactly when the sizes are equal and the elements agree at every index
below the size, whatever the capacities and the slots from the size on; `a != b`
returns the negation. -/
theorem op_eq_spec [DecidableEq α] (a b : SimpleVector α)
    (ha : a.size_ ≤ a.items_.length) (hb : b.size_ ≤ b.items_.length) :
    ∃ r, op_eq a b = some r ∧ op_ne a b = some (!r) ∧
      (r = true ↔ a.GetSize = b.GetSize ∧ ∀ i, i < a.GetSize → a.index i = b.index i) := by
  by_cases hsz : a.size_ = b.size_
  · obtain ⟨r, hr, hiff⟩ :=
      std_equal_loop_spec a.items_ b.items_ a.size_ 0 0 (by omega) (by omega)
    have heq : op_eq a b = some r := by
      simp only [op_eq, std_equal, if_neg (not_not.mpr hsz), hr]
    refine ⟨r, heq, by simp only [op_ne, heq, Option.map_some'], ?_⟩
    rw [hiff]
    constructor
    · intro h
      refine ⟨hsz, fun i hi => ?_⟩
      have hi1 : i < a.size_ := hi
      have := h i hi
      rw [Nat.zero_add] at this
      simp only [index, ArrayPtr.read, if_pos hi1, if_pos (show i < b.size_ by omega), this]
    · intro h k hk
      have := h.2 k hk
      simp only [index, ArrayPtr.read, if_pos hk, if_pos (show k < b.size_ by omega)] at this
      rw [Nat.zero_add]
      exact this
  · have heq : op_eq a b = some false := by
      simp only [op_eq, std_equal, if_pos hsz]
    refine ⟨false, heq, by simp only [op_ne, heq, Option.map_some', Bool.not_false], ?_⟩
    constructor
    · intro h
      cases h
    · intro h
      exact absurd h.1 hsz

/-- Witness of C15: two vectors with the elements `1, 3`, capacities 2 and 5 and
different slots beyond the size. -/
theorem op_eq_spec_witness :
    (SimpleVector.mk 2 2 [1, 3]).size_ ≤ (SimpleVector.mk 2 2 [1, 3]).items_.length ∧
      (SimpleVector.mk 2 5 [1, 3, 9, 9, 9]).size_ ≤
        (SimpleVector.mk 2 5 [1, 3, 9, 9, 9]).items_.length ∧
      op_eq (SimpleVector.mk 2 2 [1, 3]) (SimpleVector.mk 2 5 [1, 3, 9, 9, 9]) = some true ∧
      ∃ r, op_eq (SimpleVector.mk 2 2 [1, 3]) (SimpleVector.mk 2 5 [1, 3, 9, 9, 9]) = some r ∧
        op_ne (SimpleVector.mk 2 2 [1, 3]) (SimpleVector.mk 2 5 [1, 3, 9, 9, 9]) = some (!r) ∧
        (r = true ↔
          (SimpleVector.mk 2 2 [1, 3]).GetSize = (SimpleVector.mk 2 5 [1, 3, 9, 9, 9]).GetSize ∧
          ∀ i, i < (SimpleVector.mk 2 2 [1, 3]).GetSize →
            (SimpleVector.mk 2 2 [1, 3]).index i =
              (SimpleVector.mk 2 5 [1, 3, 9, 9, 9]).index i) :=
  ⟨by decide, by decide, rfl,
    op_eq_spec (SimpleVector.mk 2 2 [1, 3]) (SimpleVector.mk 2 5 [1, 3, 9, 9, 9])
      (by decide) (by decide)⟩

/-- Counterexample to C16 as stated: for the element type `Keyed`, whose `<`
compares the key alone, the vectors `{(1,0), (2,0)}` and `{(1,1), (3,0)}`
compare as `a < b`, because neither first element is less than the other and
`(2,0) < (3,0)`; but the first elements are not equal, no element of `a` is less
at index 0, and the sizes agree, so the right-hand side of the claim is false. -/
theorem op_lt_needs_total_order :
    op_lt (SimpleVector.mk 2 2 [Keyed.mk 1 0, Keyed.mk 2 0])
        (SimpleVector.mk 2 2 [Keyed.mk 1 1, Keyed.mk 3 0]) = some true ∧
      ¬ ((∃ i, i < (SimpleVector.mk 2 2 [Keyed.mk 1 0, Keyed.mk 2 0]).GetSize ∧
            i < (SimpleVector.mk 2 2 [Keyed.mk 1 1, Keyed.mk 3 0]).GetSize ∧
            (∀ j, j < i → (SimpleVector.mk 2 2 [Keyed.mk 1 0, Keyed.mk 2 0]).index j =
              (SimpleVector.mk 2 2 [Keyed.mk 1 1, Keyed.mk 3 0]).index j) ∧
            ∃ x y, (SimpleVector.mk 2 2 [Keyed.mk 1 0, Keyed.mk 2 0]).index i = some x ∧
              (SimpleVector.mk 2 2 [Keyed.mk 1 1, Keyed.mk 3 0]).index i = some y ∧ x < y) ∨
          ((SimpleVector.mk 2 2 [Keyed.mk 1 0, Keyed.mk 2 0]).GetSize <
              (SimpleVector.mk 2 2 [Keyed.mk 1 1, Keyed.mk 3 0]).GetSize ∧
            ∀ j, j < (SimpleVector.mk 2 2 [Keyed.mk 1 0, Keyed.mk 2 0]).GetSize →
              (SimpleVector.mk 2 2 [Keyed.mk 1 0, Keyed.mk 2 0]).index j =
                (SimpleVector.mk 2 2 [Keyed.mk 1 1, Keyed.mk 3 0]).index j)) := by
  refine ⟨rfl, ?_⟩
  intro h
  rcases h with ⟨i, hi, _, hpre, x, y, hx, hy, hxy⟩ | ⟨hlt, _⟩
  · have hi2 : i < 2 := hi
    have h01 : i = 0 ∨ i = 1 := by omega
    rcases h01 with h0 | h1
    · subst h0
      have ex : x = Keyed.mk 1 0 := (Option.some.inj hx).symm
      have ey : y = Keyed.mk 1 1 := (Option.some.inj hy).symm
      rw [ex, ey] at hxy
      exact absurd hxy (by decide)
    · subst h1
      have := hpre 0 (by omega)
      exact absurd this (by decide)
  · exact absurd hlt (by decide)

/-- C16, amended: for two vectors over a totally ordered element type whose
elements lie in allocated slots, `a < b` returns `true` exactly when either some index `i`
below both sizes has equal elements at all indices before it and `a[i] < b[i]`,
or `a` is shorter than `b` and all elements of `a` equal the corresponding
elements of `b`. -/
theorem op_lt_spec [LinearOrder α] (a b : SimpleVector α)
    (ha : a.size_ ≤ a.items_.length) (hb : b.size_ ≤ b.items_.length) :
    ∃ r, op_lt a b = some r ∧
      (r = true ↔
        (∃ i, i < a.GetSize ∧ i < b.GetSize ∧ (∀ j, j < i → a.index j = b.index j) ∧
          ∃ x y, a.index i = some x ∧ b.index i = some y ∧ x < y) ∨
        (a.GetSize < b.GetSize ∧ ∀ j, j < a.GetSize → a.index j = b.index j)) := by
  obtain ⟨r, hr, hiff⟩ :=
    std_lexicographical_compare_spec a.items_ b.items_ a.size_ b.size_ 0 0
      (by omega) (by omega)
  refine ⟨r, hr, ?_⟩
  rw [hiff]
  constructor
  · intro h
    rcases h with ⟨i, hi1, hi2, hpre, x, y, hax, hby, hxy⟩ | ⟨hn, hpre⟩
    · refine Or.inl ⟨i, hi1, hi2, fun j hj => ?_, x, y, ?_, ?_, hxy⟩
      · rw [index_of_lt a j (by omega), index_of_lt b j (by omega)]
        exact hpre j hj
      · rw [index_of_lt a i hi1]
        exact hax
      · rw [index_of_lt b i hi2]
        exact hby
    · refine Or.inr ⟨hn, fun j hj => ?_⟩
      have hj1 : j < a.size_ := hj
      rw [index_of_lt a j hj1, index_of_lt b j (by omega)]
      exact hpre j hj
  · intro h
    rcases h with ⟨i, hi1, hi2, hpre, x, y, hax, hby, hxy⟩ | ⟨hn, hpre⟩
    · have hi1' : i < a.size_ := hi1
      have hi2' : i < b.size_ := hi2
      refine Or.inl ⟨i, hi1, hi2, fun j hj => ?_, x, y, ?_, ?_, hxy⟩
      · rw [← index_of_lt a j (by omega), ← index_of_lt b j (by omega)]
        exact hpre j hj
      · rw [← index_of_lt a i hi1']
        exact hax
      · rw [← index_of_lt b i hi2']
        exact hby
    · have hn' : a.size_ < b.size_ := hn
      refine Or.inr ⟨hn, fun j hj => ?_⟩
      rw [← index_of_lt a j hj, ← index_of_lt b j (by omega)]
      exact hpre j hj

/-- Witness of C16, amended: `{1, 2} < {1, 2, 3}` is true and
`{1, 3} > {1, 2, 9}` is true. -/
theorem op_lt_spec_witness :
    op_lt (SimpleVector.mk 2 2 [1, 2]) (SimpleVector.mk 3 3 [1, 2, 3]) = some true ∧
      op_gt (SimpleVector.mk 2 2 [1, 3]) (SimpleVector.mk 3 3 [1, 2, 9]) = some true ∧
      (SimpleVector.mk 2 2 [1, 2]).size_ ≤ (SimpleVector.mk 2 2 [1, 2]).items_.length ∧
      (SimpleVector.mk 3 3 [1, 2, 3]).size_ ≤ (SimpleVector.mk 3 3 [1, 2, 3]).items_.length ∧
      ∃ r, op_lt (SimpleVector.mk 2 2 [1, 2]) (SimpleVector.mk 3 3 [1, 2, 3]) = some r ∧
        (r = true ↔
          (∃ i, i < (SimpleVector.mk 2 2 [1, 2]).GetSize ∧
            i < (SimpleVector.mk 3 3 [1, 2, 3]).GetSize ∧
            (∀ j, j < i → (SimpleVector.mk 2 2 [1, 2]).index j =
              (SimpleVector.mk 3 3 [1, 2, 3]).index j) ∧
            ∃ x y, (SimpleVector.mk 2 2 [1, 2]).index i = some x ∧
              (SimpleVector.mk 3 3 [1, 2, 3]).index i = some y ∧ x < y) ∨
          ((SimpleVector.mk 2 2 [1, 2]).GetSize < (SimpleVector.mk 3 3 [1, 2, 3]).GetSize ∧
            ∀ j, j < (SimpleVector.mk 2 2 [1, 2]).GetSize →
              (SimpleVector.mk 2 2 [1, 2]).index j =
                (SimpleVector.mk 3 3 [1, 2, 3]).index j)) :=
  ⟨by decide, by decide, by decide, by decide,
    op_lt_spec (SimpleVector.mk 2 2 [1, 2]) (SimpleVector.mk 3 3 [1, 2, 3])
      (by decide) (by decide)⟩

/-- C17: for two vectors over a totally ordered element type whose elements lie
in allocated slots, `a > b` is `b < a`, `a <= b` is `a < b` or `a == b`,
`a >= b` is `a > b` or `a == b`, and exactly one of `a < b`, `a == b`, `a > b`
is true. -/
theorem derived_operators [LinearOrder α] (a b : SimpleVector α)
    (ha : a.size_ ≤ a.items_.length) (hb : b.size_ ≤ b.items_.length) :
    ∃ r_lt r_eq r_gt : Bool, op_lt a b = some r_lt ∧ op_eq a b = some r_eq ∧
      op_gt a b = some r_gt ∧ op_lt b a = some r_gt ∧
      op_le a b = some (r_lt || r_eq) ∧ op_ge a b = some (r_gt || r_eq) ∧
      ((r_lt = true ∧ r_eq = false ∧ r_gt = false) ∨
        (r_lt = false ∧ r_eq = true ∧ r_gt = false) ∨
        (r_lt = false ∧ r_eq = false ∧ r_gt = true)) := by
  obtain ⟨r1, r2, hr1, hr2, hex, hne, hre⟩ :=
    compare_trichotomy a.items_ b.items_ a.size_ b.size_ 0 0 (by omega) (by omega)
  have hlt : op_lt a b = some r1 := hr1
  have hgt : op_lt b a = some r2 := hr2
  by_cases hsz : a.size_ = b.size_
  · obtain ⟨re, hre1, hre2⟩ := hre hsz
    have heq : op_eq a b = some re := by
      simp only [op_eq, std_equal, if_neg (not_not.mpr hsz), hre1]
    refine ⟨r1, re, r2, hlt, heq, hgt, hgt, ?_, ?_, ?_⟩
    · simp only [op_le, hgt, Option.map_some']
      cases r1 <;> cases r2 <;> cases re <;> simp_all
    · simp only [op_ge, op_gt, hlt, Option.map_some']
      cases r1 <;> cases r2 <;> cases re <;> simp_all
    · cases r1 <;> cases r2 <;> cases re <;> simp_all
  · have heq : op_eq a b = some false := by
      simp only [op_eq, std_equal, if_pos hsz]
    have hor := hne hsz
    refine ⟨r1, false, r2, hlt, heq, hgt, hgt, ?_, ?_, ?_⟩
    · simp only [op_le, hgt, Option.map_some']
      cases r1 <;> cases r2 <;> simp_all
    · simp only [op_ge, op_gt, hlt, Option.map_some']
      cases r1 <;> cases r2 <;> simp_all
    · cases r1 <;> cases r2 <;> simp_all

/-- Witness of C17: the vectors `{1, 3}` and `{1, 2, 9}`. -/
theorem derived_operators_witness :
    (SimpleVector.mk 2 2 [1, 3]).size_ ≤ (SimpleVector.mk 2 2 [1, 3]).items_.length ∧
      (SimpleVector.mk 3 3 [1, 2, 9]).size_ ≤ (SimpleVector.mk 3 3 [1, 2, 9]).items_.length ∧
      ∃ r_lt r_eq r_gt : Bool,
        op_lt (SimpleVector.mk 2 2 [1, 3]) (SimpleVector.mk 3 3 [1, 2, 9]) = some r_lt ∧
        op_eq (SimpleVector.mk 2 2 [1, 3]) (SimpleVector.mk 3 3 [1, 2, 9]) = some r_eq ∧
        op_gt (SimpleVector.mk 2 2 [1, 3]) (SimpleVector.mk 3 3 [1, 2, 9]) = some r_gt ∧
        op_lt (SimpleVector.mk 3 3 [1, 2, 9]) (SimpleVector.mk 2 2 [1, 3]) = some r_gt ∧
        op_le (SimpleVector.mk 2 2 [1, 3]) (SimpleVector.mk 3 3 [1, 2, 9])
          = some (r_lt || r_eq) ∧
        op_ge (SimpleVector.mk 2 2 [1, 3]) (SimpleVector.mk 3 3 [1, 2, 9])
          = some (r_gt || r_eq) ∧
        ((r_lt = true ∧ r_eq = false ∧ r_gt = false) ∨
          (r_lt = false ∧ r_eq = true ∧ r_gt = false) ∨
          (r_lt = false ∧ r_eq = false ∧ r_gt = true)) :=
  ⟨by decide, by decide,
    derived_operators (SimpleVector.mk 2 2 [1, 3]) (SimpleVector.mk 3 3 [1, 2, 9])
      (by decide) (by decide)⟩

/-- C18: for every `n`, `SimpleVector(n)` has size `n`, capacity `n` and the
default value at every index below `n`; for every `n` and `value`,
`SimpleVector(n, value)` has size `n`, capacity `n` and `value` at every index
below `n`. -/
theorem sized_spec [Inhabited α] (junk : Nat → α) (n : Nat) (value : α) :
    (∃ w, sized junk n = some w ∧ w.GetSize = n ∧ w.GetCapacity = n ∧
        ∀ i, i < n → w.index i = some default) ∧
      (∃ w, filled junk n value = some w ∧ w.GetSize = n ∧ w.GetCapacity = n ∧
        ∀ i, i < n → w.index i = some value) := by
  constructor
  · refine ⟨_, sized_eq junk n, rfl, rfl, fun i hi => ?_⟩
    simp only [index, if_pos hi, ArrayPtr.read, List.getElem?_replicate]
  · refine ⟨_, filled_eq junk n value, rfl, rfl, fun i hi => ?_⟩
    simp only [index, if_pos hi, ArrayPtr.read, List.getElem?_replicate]

/-- C19: on a vector with `size <= capacity` whose capacity is the number of its
allocated slots, every run of `Insert` that returns leaves the capacity twice
the old one when the vector was full with a positive capacity, 1 when it was
full with capacity 0, and unchanged when `size < capacity`; and `Insert` of an
object outside the buffer at a position `cbegin() + k` with `k <= size` does
return when the doubled capacity fits `size_t`. -/
theorem Insert_capacity [Inhabited α] (junk : Nat → α) (v : SimpleVector α)
    (hsc : v.size_ ≤ v.capacity_) (hbuf : v.items_.length = v.capacity_) :
    (∀ pos value w p, Insert junk v pos value = some (w, p) →
        (v.size_ = v.capacity_ → 0 < v.capacity_ → w.GetCapacity = 2 * v.GetCapacity) ∧
        (v.size_ = v.capacity_ → v.capacity_ = 0 → w.GetCapacity = 1) ∧
        (v.size_ < v.capacity_ → w.GetCapacity = v.GetCapacity)) ∧
      (v.capacity_ * 2 < 2 ^ 64 → ∀ k x, k ≤ v.size_ →
        ∃ w, Insert junk v (v.cbegin.add k) (Ref.outside x) = some (w, k)) := by
  constructor
  · intro pos value w p h
    by_cases he : v.size_ = 0
    · have hpb : PushBack junk v value = some w :=
        Insert_of_empty junk v w pos p value h he
      obtain ⟨hA, hB⟩ := PushBack_counters junk v w value hpb
      refine ⟨fun hf hp => by omega, fun hf h0 => ?_, fun hlt => (hA hlt).2⟩
      have hc := (hB (by omega)).2
      rw [he, h0] at hc
      show w.capacity_ = 1
      rw [hc]
      decide
    · obtain ⟨u, hu, hs, hc, hl, hslot⟩ := Insert_some junk v w pos p value h he
      by_cases hf : v.size_ = v.capacity_
      · rw [if_pos hf] at hu
        obtain ⟨hus, huc⟩ := Resize_counters junk v u _ hu
        rw [if_neg (by omega)] at huc
        have hgrow : max v.size_ (size_t (v.capacity_ * 2)) > v.capacity_ := by
          by_contra hno
          have hsame := Resize_keeps_buffer junk v u _ hu (by omega) (by omega) hno
          rw [hsame, hbuf, hus] at hslot
          omega
        have hfit : size_t (v.capacity_ * 2) = v.capacity_ * 2 := by
          have hx : size_t (v.capacity_ * 2) > v.capacity_ := by
            rcases max_cases v.size_ (size_t (v.capacity_ * 2)) with ⟨hm, _⟩ | ⟨hm, _⟩
            · rw [hm] at hgrow
              omega
            · rw [hm] at hgrow
              exact hgrow
          unfold size_t at hx ⊢
          omega
        refine ⟨fun _ _ => ?_, fun _ h0 => by omega, fun hlt => by omega⟩
        show w.capacity_ = 2 * v.capacity_
        rw [hc, huc, hfit, max_eq_right (by omega)]
        omega
      · rw [if_neg hf] at hu
        cases hu
        refine ⟨fun h1 => absurd h1 hf, fun h1 => absurd h1 hf, fun _ => hc⟩
  · intro hcap k x hk
    obtain ⟨w, hw, _⟩ := Insert_valid junk v k x ⟨hsc, by omega⟩ hcap hk
    exact ⟨w, hw⟩

/-- Witness of C19: the full vector `{1, 2, 3}`. -/
theorem Insert_capacity_witness :
    (SimpleVector.mk 3 3 [1, 2, 3]).size_ ≤ (SimpleVector.mk 3 3 [1, 2, 3]).capacity_ ∧
      (SimpleVector.mk 3 3 [1, 2, 3]).items_.length = (SimpleVector.mk 3 3 [1, 2, 3]).capacity_ ∧
      Insert (fun _ => 7) (SimpleVector.mk 3 3 [1, 2, 3]) (Ptr.slot 1) (Ref.outside 9)
        = some (⟨4, 6, [1, 9, 2, 3, 0, 0]⟩, 1) ∧
      ((∀ pos value w p,
          SimpleVector.Insert (fun _ => 7) (SimpleVector.mk 3 3 [1, 2, 3]) pos value
            = some (w, p) →
          ((SimpleVector.mk 3 3 [1, 2, 3]).size_ = (SimpleVector.mk 3 3 [1, 2, 3]).capacity_ →
            0 < (SimpleVector.mk 3 3 [1, 2, 3]).capacity_ →
            w.GetCapacity = 2 * (SimpleVector.mk 3 3 [1, 2, 3]).GetCapacity) ∧
          ((SimpleVector.mk 3 3 [1, 2, 3]).size_ = (SimpleVector.mk 3 3 [1, 2, 3]).capacity_ →
            (SimpleVector.mk 3 3 [1, 2, 3]).capacity_ = 0 → w.GetCapacity = 1) ∧
          ((SimpleVector.mk 3 3 [1, 2, 3]).size_ < (SimpleVector.mk 3 3 [1, 2, 3]).capacity_ →
            w.GetCapacity = (SimpleVector.mk 3 3 [1, 2, 3]).GetCapacity)) ∧
        ((SimpleVector.mk 3 3 [1, 2, 3]).capacity_ * 2 < 2 ^ 64 → ∀ k x,
          k ≤ (SimpleVector.mk 3 3 [1, 2, 3]).size_ →
          ∃ w, SimpleVector.Insert (fun _ => 7) (SimpleVector.mk 3 3 [1, 2, 3])
            ((SimpleVector.mk 3 3 [1, 2, 3]).cbegin.add k) (Ref.outside x) = some (w, k))) :=
  ⟨by decide, by decide, rfl,
    Insert_capacity (fun _ => 7) (SimpleVector.mk 3 3 [1, 2, 3]) (by decide) (by decide)⟩

/-- Counterexample to C20 as stated: on the vector built from `Reserve(2 ^ 63)`
(size 0, capacity `2 ^ 63`), `Resize(0)` leaves the capacity 0, because
`capacity_ * 2` is `0` in `size_t`; the claim gives `max(0, 2 * 2 ^ 63)` and a
capacity above the old one. -/
theorem Resize_same_size_wraps :
    (ofReserve (2 ^ 63) : SimpleVector Nat).size_ = 0 ∧
      (ofReserve (2 ^ 63) : SimpleVector Nat).capacity_ = 2 ^ 63 ∧
      Resize (fun _ => 7) (ofReserve (2 ^ 63) : SimpleVector Nat) 0 = some ⟨0, 0, []⟩ ∧
      (SimpleVector.mk 0 0 ([] : List Nat)).GetCapacity ≠
        max 0 (2 * (ofReserve (2 ^ 63) : SimpleVector Nat).GetCapacity) ∧
      ¬ (ofReserve (2 ^ 63) : SimpleVector Nat).GetCapacity <
        (SimpleVector.mk 0 0 ([] : List Nat)).GetCapacity := by
  refine ⟨rfl, rfl, by decide, by decide, by decide⟩

/-- C20, amended: on a vector with `size <= capacity` whose elements lie in
allocated slots and whose doubled capacity fits `size_t`
(`2 * capacity < 2 ^ 64`), `Resize(size)` returns, keeps the size and every
element below the size, and makes the capacity `max(size, 2 * capacity)`, which
is above the old capacity whenever that was positive. -/
theorem Resize_same_size [Inhabited α] (junk : Nat → α) (v : SimpleVector α)
    (hsc : v.size_ ≤ v.capacity_) (hbuf : v.size_ ≤ v.items_.length)
    (hcap : v.capacity_ * 2 < 2 ^ 64) :
    ∃ w, Resize junk v v.size_ = some w ∧ w.GetSize = v.GetSize ∧
      (∀ i, i < v.size_ → w.index i = v.index i) ∧
      w.GetCapacity = max v.GetSize (2 * v.GetCapacity) ∧
      (0 < v.capacity_ → v.GetCapacity < w.GetCapacity) := by
  have e2 : size_t (v.capacity_ * 2) = v.capacity_ * 2 := size_t_of_lt _ hcap
  have hcomm : max v.size_ (v.capacity_ * 2) = max v.size_ (2 * v.capacity_) := by
    rw [Nat.mul_comm]
  by_cases hpos : 0 < v.capacity_
  · obtain ⟨buf, hr, hlen, hget⟩ :=
      Resize_realloc junk v v.size_ (le_refl _) (Or.inr rfl)
        (by rw [e2]; exact lt_of_lt_of_le (by omega) (le_max_right _ _)) hbuf
    rw [e2] at hr hlen hget
    refine ⟨_, hr, rfl, fun i hi => ?_, hcomm, fun _ => ?_⟩
    · simp only [index, ArrayPtr.read, if_pos hi, hget i]
    · show v.capacity_ < max v.size_ (v.capacity_ * 2)
      exact lt_of_lt_of_le (by omega) (le_max_right _ _)
  · have h0 : v.capacity_ = 0 := by omega
    have hs0 : v.size_ = 0 := by omega
    have hno : ¬ max v.size_ (v.capacity_ * 2) > v.capacity_ := by
      rw [h0, hs0]
      decide
    refine ⟨⟨v.size_, max v.size_ (v.capacity_ * 2), v.items_⟩, ?_, rfl, fun i hi => rfl,
      hcomm, fun h => absurd h hpos⟩
    have hb1 : ¬ v.size_ < v.size_ := lt_irrefl _
    have hb2 : ¬ (v.size_ > v.size_ ∧ v.size_ < v.capacity_) := by omega
    simp only [Resize, if_neg hb1, if_neg hb2, e2, Reserve, if_neg hno, Option.map_some']

/-- Witness of C20, amended: the vector of size 2 and capacity 3 with slots
`1, 2, 3`. -/
theorem Resize_same_size_witness :
    (SimpleVector.mk 2 3 [1, 2, 3]).size_ ≤ (SimpleVector.mk 2 3 [1, 2, 3]).capacity_ ∧
      (SimpleVector.mk 2 3 [1, 2, 3]).size_ ≤ (SimpleVector.mk 2 3 [1, 2, 3]).items_.length ∧
      (SimpleVector.mk 2 3 [1, 2, 3]).capacity_ * 2 < 2 ^ 64 ∧
      ∃ w, Resize (fun _ => 7) (SimpleVector.mk 2 3 [1, 2, 3])
          (SimpleVector.mk 2 3 [1, 2, 3]).size_ = some w ∧
        w.GetSize = (SimpleVector.mk 2 3 [1, 2, 3]).GetSize ∧
        (∀ i, i < (SimpleVector.mk 2 3 [1, 2, 3]).size_ →
          w.index i = (SimpleVector.mk 2 3 [1, 2, 3]).index i) ∧
        w.GetCapacity = max (SimpleVector.mk 2 3 [1, 2, 3]).GetSize
          (2 * (SimpleVector.mk 2 3 [1, 2, 3]).GetCapacity) ∧
        (0 < (SimpleVector.mk 2 3 [1, 2, 3]).capacity_ →
          (SimpleVector.mk 2 3 [1, 2, 3]).GetCapacity < w.GetCapacity) :=
  ⟨by decide, by decide, by decide,
    Resize_same_size (fun _ => 7) (SimpleVector.mk 2 3 [1, 2, 3])
      (by decide) (by decide) (by decide)⟩

end SimpleVec
